import Mathlib

/-!
Verification of the retrieval core of the codebase-search system.

This file gives a shallow embedding, in Lean 4, of the retrieval pipeline
implemented in src/codebase/retrieval/search.py, reranker.py and hyde.py:
the SearchResult data model, keyword / semantic / description / hybrid /
HyDE search, reciprocal rank fusion, the reranker sub-scores, and the
confidence and diversity post-filters.

Modelling conventions:
- Python floats are modelled as exact rationals; all score arithmetic in
  the source (sums, products, divisions by list lengths) is carried out on
  the same expressions over the rationals.
- External collaborators (the embedding generator, the vector store, the
  HyDE generation backend, the translation agent) are oracle parameters,
  collected in a Ports structure and passed explicitly; per the source they
  are injected into SemanticSearch at construction time.  Calls that can
  raise in Python are modelled in an Except monad; the top-level search
  catches, as the source does.
- Python dicts used as id-keyed accumulators are modelled as association
  lists preserving insertion order, which mirrors the insertion-ordered
  semantics of Python 3.7+ dicts.
- Python list.sort / sorted with reverse=True is a stable descending sort;
  it is modelled by the stable insertion sort sortDescBy below.
- Strings in play are ASCII, so Python str.lower coincides with
  String.toLower and the regex character classes are the ASCII ones.
-/

/-! ## Basic string helpers (Python primitives) -/

/-- Python substring test: listStartsWith pre l is true when pre is a prefix of l. -/
def listStartsWith : List Char → List Char → Bool
  | [], _ => true
  | _ :: _, [] => false
  | a :: as, b :: bs => a == b && listStartsWith as bs

/-- Python needle in hay for lists of characters (contiguous substring). -/
def listHasSub (needle : List Char) : List Char → Bool
  | [] => needle.isEmpty
  | c :: cs => listStartsWith needle (c :: cs) || listHasSub needle cs

/-- Python needle in hay on strings. -/
def pyIn (needle hay : String) : Bool :=
  listHasSub needle.data hay.data

/-- Lowercase one ASCII character (Python str.lower on the strings in play). -/
def lowerChar (c : Char) : Char :=
  if 'A' ≤ c && c ≤ 'Z' then Char.ofNat (c.toNat + 32) else c

/-- Python str.lower (ASCII). -/
def pyLower (s : String) : String := String.mk (s.data.map lowerChar)

/-- Split a character list at every separator position (Python str.split(sep),
which keeps empty fields). -/
def splitByAux (p : Char → Bool) (acc : List Char) : List Char → List (List Char)
  | [] => [acc.reverse]
  | c :: cs => if p c then acc.reverse :: splitByAux p [] cs else splitByAux p (c :: acc) cs

/-- Python str.split() with no argument: split on whitespace runs, dropping empties. -/
def pySplitWs (s : String) : List String :=
  ((splitByAux (fun c => c.isWhitespace) [] s.data).map String.mk).filter
    (fun w => !w.isEmpty)

/-- Python str.split(sep) for a single-character separator, keeping empties. -/
def pySplitOnChar (sep : Char) (s : String) : List String :=
  (splitByAux (fun c => c == sep) [] s.data).map String.mk

/-- Python s[:n] (strings in play are ASCII, so characters = code points). -/
def pyTake (s : String) (n : Nat) : String := String.mk (s.data.take n)

/-- Python str.strip(). -/
def pyStrip (s : String) : String :=
  String.mk (((s.data.dropWhile Char.isWhitespace).reverse.dropWhile Char.isWhitespace).reverse)

/-- Python sep.join(parts). -/
def pyJoin (sep : String) : List String → String
  | [] => ""
  | [x] => x
  | x :: xs => x ++ sep ++ pyJoin sep xs

/-! ## Metadata (Python dict, insertion ordered) -/

/-- Value stored in SearchResult.metadata (string, number, boolean or None). -/
inductive MetaVal where
  | str : String → MetaVal
  | num : ℚ → MetaVal
  | flag : Bool → MetaVal
  | null : MetaVal
deriving DecidableEq, Repr

/-- Python d[k] = v on an insertion-ordered dict: replace in place or append.
The keys of every dict in play are unique, so replacing the first occurrence
of the key is the dict assignment. -/
def metaSet : List (String × MetaVal) → String → MetaVal → List (String × MetaVal)
  | [], k, v => [(k, v)]
  | p :: ps, k, v => if p.1 == k then (k, v) :: ps else p :: metaSet ps k v

/-- Python d.update(kvs) on an insertion-ordered dict. -/
def metaUpdate (m : List (String × MetaVal)) (kvs : List (String × MetaVal)) :
    List (String × MetaVal) :=
  kvs.foldl (fun acc kv => metaSet acc kv.1 kv.2) m

/-- Python d.get(k): first entry with the key. -/
def metaGet (m : List (String × MetaVal)) (k : String) : Option MetaVal :=
  (m.find? (fun p => p.1 == k)).map (fun p => p.2)

/-! ## Data model: raw vector-store records and SearchResult -/

/-- Record returned by the vector store (score is a distance, lower = closer). -/
structure RawRecord where
  id : String
  text : String
  chunk_type : String
  name : String
  file_path : String
  language : String
  line_start : Int
  line_end : Int
  parent_name : Option String
  description : Option String
  score : ℚ
deriving DecidableEq, Repr

/-- SearchResult from src/codebase/retrieval/search.py. -/
structure SearchResult where
  id : String
  content : String
  chunk_type : String
  name : String
  file_path : String
  language : String
  line_start : Int
  line_end : Int
  parent_name : Option String
  description : Option String
  score : ℚ
  metadata : List (String × MetaVal)
deriving DecidableEq, Repr

/-! ## Stable descending sort (Python sorted with reverse=True) -/

/-- Insert e into a descending-sorted list, after every element whose key is
greater than or equal to the key of e (this preserves input order on ties). -/
def insertDescBy (f : α → ℚ) (e : α) : List α → List α
  | [] => [e]
  | x :: xs => if f e ≤ f x then x :: insertDescBy f e xs else e :: x :: xs

/-- Stable descending sort by a rational key, processing input left to right. -/
def sortDescBy (f : α → ℚ) (l : List α) : List α :=
  l.foldl (fun acc e => insertDescBy f e acc) []

theorem insertDescBy_perm (f : α → ℚ) (e : α) (l : List α) :
    (insertDescBy f e l).Perm (e :: l) := by
  induction l with
  | nil => simp [insertDescBy]
  | cons x xs ih =>
    simp only [insertDescBy]
    split
    · exact ((ih.cons x).trans (List.Perm.swap e x xs))
    · exact List.Perm.refl _

theorem sortDescBy_aux_perm (f : α → ℚ) (l acc : List α) :
    (l.foldl (fun acc e => insertDescBy f e acc) acc).Perm (acc ++ l) := by
  induction l generalizing acc with
  | nil => simp
  | cons x xs ih =>
    simp only [List.foldl_cons]
    refine (ih (insertDescBy f x acc)).trans ?_
    have h1 : (insertDescBy f x acc ++ xs).Perm ((x :: acc) ++ xs) :=
      (insertDescBy_perm f x acc).append_right xs
    refine h1.trans ?_
    simp only [List.cons_append]
    exact (List.perm_middle).symm

theorem sortDescBy_perm (f : α → ℚ) (l : List α) : (sortDescBy f l).Perm l := by
  simpa using sortDescBy_aux_perm f l []

theorem insertDescBy_sorted (f : α → ℚ) (e : α) (l : List α)
    (h : l.Pairwise (fun a b => f b ≤ f a)) :
    (insertDescBy f e l).Pairwise (fun a b => f b ≤ f a) := by
  induction l with
  | nil => simp [insertDescBy]
  | cons x xs ih =>
    rcases List.pairwise_cons.mp h with ⟨hx, hxs⟩
    simp only [insertDescBy]
    split
    · rename_i hle
      refine List.pairwise_cons.mpr ⟨?_, ih hxs⟩
      intro b hb
      rcases List.mem_cons.mp ((insertDescBy_perm f e xs).mem_iff.mp hb) with hb' | hb'
      · simpa [hb'] using hle
      · exact hx b hb'
    · rename_i hgt
      push_neg at hgt
      refine List.pairwise_cons.mpr ⟨?_, h⟩
      intro b hb
      rcases List.mem_cons.mp hb with hb' | hb'
      · simp [hb']; exact le_of_lt hgt
      · exact le_trans (hx b hb') (le_of_lt hgt)

theorem sortDescBy_aux_sorted (f : α → ℚ) (l acc : List α)
    (h : acc.Pairwise (fun a b => f b ≤ f a)) :
    (l.foldl (fun acc e => insertDescBy f e acc) acc).Pairwise (fun a b => f b ≤ f a) := by
  induction l generalizing acc with
  | nil => simpa using h
  | cons x xs ih =>
    simp only [List.foldl_cons]
    exact ih _ (insertDescBy_sorted f x acc h)

theorem sortDescBy_sorted (f : α → ℚ) (l : List α) :
    (sortDescBy f l).Pairwise (fun a b => f b ≤ f a) := by
  simpa [sortDescBy] using sortDescBy_aux_sorted f l [] (by simp)

theorem insertDescBy_filter_eq (f : α → ℚ) (e : α) (l : List α) (s : ℚ)
    (h : l.Pairwise (fun a b => f b ≤ f a)) :
    (insertDescBy f e l).filter (fun x => decide (f x = s)) =
      if f e = s then l.filter (fun x => decide (f x = s)) ++ [e]
      else l.filter (fun x => decide (f x = s)) := by
  induction l with
  | nil =>
    simp only [insertDescBy, List.filter]
    by_cases hfe : f e = s <;> simp [hfe]
  | cons x xs ih =>
    rcases List.pairwise_cons.mp h with ⟨hx, hxs⟩
    simp only [insertDescBy]
    split
    · rename_i hle
      by_cases hfx : f x = s
      · by_cases hfe : f e = s <;>
          simp [List.filter_cons, hfx, hfe, ih hxs]
      · by_cases hfe : f e = s <;>
          simp [List.filter_cons, hfx, hfe, ih hxs]
    · rename_i hgt
      push_neg at hgt
      by_cases hfe : f e = s
      · have hxs0 : (x :: xs).filter (fun x => decide (f x = s)) = [] := by
          apply List.filter_eq_nil_iff.mpr
          intro a ha
          have hax : f a ≤ f x := by
            rcases List.mem_cons.mp ha with ha' | ha'
            · simp [ha']
            · exact hx a ha'
          have : f a < f e := lt_of_le_of_lt hax hgt
          simp only [decide_eq_true_eq]
          intro hcontra
          rw [hcontra, hfe] at this
          exact lt_irrefl s this
        simp [List.filter_cons, hfe, hxs0]
      · simp [List.filter_cons, hfe]

theorem sortDescBy_aux_filter (f : α → ℚ) (l acc : List α) (s : ℚ)
    (h : acc.Pairwise (fun a b => f b ≤ f a)) :
    (l.foldl (fun acc e => insertDescBy f e acc) acc).filter (fun x => decide (f x = s)) =
      acc.filter (fun x => decide (f x = s)) ++ l.filter (fun x => decide (f x = s)) := by
  induction l generalizing acc with
  | nil => simp
  | cons x xs ih =>
    simp only [List.foldl_cons]
    rw [ih _ (insertDescBy_sorted f x acc h)]
    rw [insertDescBy_filter_eq f x acc s h]
    by_cases hfx : f x = s <;> simp [List.filter_cons, hfx]

/-- Stability of the sort: for every key value, the elements carrying that key
appear in the output exactly in their input order. -/
theorem sortDescBy_filter (f : α → ℚ) (l : List α) (s : ℚ) :
    (sortDescBy f l).filter (fun x => decide (f x = s)) =
      l.filter (fun x => decide (f x = s)) := by
  simpa [sortDescBy] using sortDescBy_aux_filter f l [] s (by simp)


/-! ## ConfidenceFilter and DiversityFilter (src/codebase/retrieval/reranker.py) -/

/-- ConfidenceFilter.filter: keep results whose score is at least min_score. -/
def confidence_filter (min_score : ℚ) (results : List SearchResult) : List SearchResult :=
  results.filter (fun r => decide (min_score ≤ r.score))

/-- Python file_counts.get(file_path, 0) on the insertion-ordered dict. -/
def lookupCount (counts : List (String × Nat)) (fp : String) : Nat :=
  ((counts.find? (fun p => p.1 == fp)).map (fun p => p.2)).getD 0

/-- Python file_counts[file_path] = n on the insertion-ordered dict (keys unique). -/
def setCount : List (String × Nat) → String → Nat → List (String × Nat)
  | [], fp, n => [(fp, n)]
  | p :: ps, fp, n => if p.1 == fp then (fp, n) :: ps else p :: setCount ps fp n

/-- Loop body of DiversityFilter.filter with the running per-file counts. -/
def diversityAux (max_per_file : Nat) (counts : List (String × Nat)) :
    List SearchResult → List SearchResult
  | [] => []
  | r :: rs =>
    let c := lookupCount counts r.file_path
    if c < max_per_file then
      r :: diversityAux max_per_file (setCount counts r.file_path (c + 1)) rs
    else diversityAux max_per_file counts rs

/-- DiversityFilter.filter: cap the number of surviving results per file. -/
def diversity_filter (max_per_file : Nat) (results : List SearchResult) : List SearchResult :=
  diversityAux max_per_file [] results

theorem lookupCount_setCount_same (counts : List (String × Nat)) (fp : String) (n : Nat) :
    lookupCount (setCount counts fp n) fp = n := by
  induction counts with
  | nil => simp [setCount, lookupCount]
  | cons p ps ih =>
    by_cases hp : p.1 = fp
    · simp [setCount, lookupCount, hp]
    · simp [setCount, lookupCount, hp, List.find?_cons] at ih ⊢
      exact ih

theorem lookupCount_setCount_other (counts : List (String × Nat)) (fp fq : String) (n : Nat)
    (h : fp ≠ fq) : lookupCount (setCount counts fp n) fq = lookupCount counts fq := by
  induction counts with
  | nil => simp [setCount, lookupCount, h]
  | cons p ps ih =>
    by_cases hp : p.1 = fp
    · have hpq : p.1 ≠ fq := by rw [hp]; exact h
      simp [setCount, lookupCount, hp, hpq, h]
    · by_cases hq : p.1 = fq
      · simp [setCount, lookupCount, hp, hq, Ne.symm h]
      · simp [setCount, lookupCount, hp, hq, List.find?_cons] at ih ⊢
        exact ih

theorem diversityAux_filter_eq (cap : Nat) (fp : String) (l : List SearchResult) :
    ∀ counts : List (String × Nat),
    (diversityAux cap counts l).filter (fun r => r.file_path == fp) =
      (l.filter (fun r => r.file_path == fp)).take (cap - lookupCount counts fp) := by
  induction l with
  | nil => intro counts; simp [diversityAux]
  | cons r rs ih =>
    intro counts
    by_cases hfp : r.file_path = fp
    · by_cases hlt : lookupCount counts r.file_path < cap
      · have hstep : diversityAux cap counts (r :: rs)
            = r :: diversityAux cap (setCount counts r.file_path (lookupCount counts r.file_path + 1)) rs := by
          simp [diversityAux, hlt]
        rw [hstep, List.filter_cons, List.filter_cons]
        have hbe : (r.file_path == fp) = true := by simp [hfp]
        simp only [hbe, if_true]
        rw [ih]
        rw [hfp] at hlt
        rw [hfp, lookupCount_setCount_same]
        obtain ⟨m, hm⟩ : ∃ m, cap - lookupCount counts fp = m + 1 :=
          ⟨cap - lookupCount counts fp - 1, by omega⟩
        rw [hm, List.take_succ_cons]
        have hmm : cap - (lookupCount counts fp + 1) = m := by omega
        rw [hmm]
      · have hstep : diversityAux cap counts (r :: rs) = diversityAux cap counts rs := by
          simp [diversityAux, hlt]
        rw [hstep, ih, List.filter_cons]
        have hbe : (r.file_path == fp) = true := by simp [hfp]
        simp only [hbe, if_true]
        rw [hfp] at hlt
        have hz : cap - lookupCount counts fp = 0 := by omega
        rw [hz]
        simp
    · have hbe : (r.file_path == fp) = false := by simp [hfp]
      by_cases hlt : lookupCount counts r.file_path < cap
      · simp only [diversityAux, hlt, if_true]
        rw [List.filter_cons]
        simp only [hbe, Bool.false_eq_true, if_false]
        rw [ih, List.filter_cons]
        simp only [hbe, Bool.false_eq_true, if_false]
        rw [lookupCount_setCount_other counts r.file_path fp _ hfp]
      · simp only [diversityAux, hlt, if_false]
        rw [ih, List.filter_cons]
        simp only [hbe, Bool.false_eq_true, if_false]

theorem diversityAux_sublist (cap : Nat) (l : List SearchResult) :
    ∀ counts, (diversityAux cap counts l).Sublist l := by
  induction l with
  | nil => intro counts; simp [diversityAux]
  | cons r rs ih =>
    intro counts
    simp only [diversityAux]
    split
    · exact (ih _).cons₂ r
    · exact (ih _).cons r

theorem diversityAux_all_kept (cap : Nat) (l : List SearchResult) :
    ∀ counts,
      (∀ fp, lookupCount counts fp + (l.filter (fun r => r.file_path == fp)).length ≤ cap) →
      diversityAux cap counts l = l := by
  induction l with
  | nil => intro counts _; simp [diversityAux]
  | cons r rs ih =>
    intro counts hcnt
    have hr := hcnt r.file_path
    rw [List.filter_cons] at hr
    simp only [beq_self_eq_true, if_true, List.length_cons] at hr
    have hlt : lookupCount counts r.file_path < cap := by omega
    simp only [diversityAux, hlt, if_true]
    congr 1
    apply ih
    intro fp
    by_cases hfp : fp = r.file_path
    · subst hfp
      rw [lookupCount_setCount_same]
      omega
    · rw [lookupCount_setCount_other counts r.file_path fp _ (fun he => hfp he.symm)]
      have := hcnt fp
      rw [List.filter_cons] at this
      have hbe : (r.file_path == fp) = false := by
        simp only [beq_eq_false_iff_ne, ne_eq]
        intro he
        exact hfp he.symm
      simp only [hbe, Bool.false_eq_true, if_false] at this
      exact this

theorem lookupCount_nil (fp : String) : lookupCount [] fp = 0 := rfl

/-- Helper constructing a concrete SearchResult for the worked examples. -/
def mkRes (id fp : String) (score : ℚ) : SearchResult :=
  { id := id, content := "", chunk_type := "function", name := id, file_path := fp,
    language := "python", line_start := 1, line_end := 2, parent_name := none,
    description := none, score := score, metadata := [] }

/-- C8: ConfidenceFilter.filter removes exactly the results whose score is
strictly below the configured minimum and preserves the relative order of the
survivors; with min_score = 0.3, scores [0.9, 0.5, 0.2, 0.1] yield exactly the
results scored [0.9, 0.5]. -/
theorem claim_C8_confidence_filter :
    (∀ (min_score : ℚ) (results : List SearchResult),
        confidence_filter min_score results
          = results.filter (fun r => !decide (r.score < min_score))
        ∧ (confidence_filter min_score results).Sublist results)
    ∧ confidence_filter (3/10)
        [mkRes "r1" "f.py" (9/10), mkRes "r2" "f.py" (1/2),
         mkRes "r3" "f.py" (1/5), mkRes "r4" "f.py" (1/10)]
      = [mkRes "r1" "f.py" (9/10), mkRes "r2" "f.py" (1/2)] := by
  refine ⟨fun min_score results => ⟨?_, List.filter_sublist _⟩,
    by norm_num [confidence_filter, List.filter, mkRes]⟩
  apply List.filter_congr
  intro r _
  simp only [← decide_not]
  exact decide_eq_decide.mpr not_lt.symm

/-- C9: DiversityFilter.filter keeps, for every file path, exactly the first
max_per_file results carrying that path, in input order, and survivors form a
subsequence of the input; on the five-result example (three results in a.py,
two in b.py, distinct descending scores) it keeps the first two a.py results,
drops the third, and keeps both b.py results, in input order. -/
theorem claim_C9_diversity_filter :
    (∀ (cap : Nat) (results : List SearchResult) (fp : String),
        (diversity_filter cap results).filter (fun r => r.file_path == fp)
          = (results.filter (fun r => r.file_path == fp)).take cap
        ∧ (diversity_filter cap results).Sublist results)
    ∧ diversity_filter 2
        [mkRes "a1" "a.py" (9/10), mkRes "a2" "a.py" (4/5), mkRes "a3" "a.py" (7/10),
         mkRes "b1" "b.py" (3/5), mkRes "b2" "b.py" (1/2)]
      = [mkRes "a1" "a.py" (9/10), mkRes "a2" "a.py" (4/5),
         mkRes "b1" "b.py" (3/5), mkRes "b2" "b.py" (1/2)] := by
  refine ⟨fun cap results fp => ⟨?_, diversityAux_sublist cap results []⟩,
    by simp [diversity_filter, diversityAux, lookupCount, setCount, mkRes, List.find?]⟩
  have h := diversityAux_filter_eq cap fp results []
  simpa [diversity_filter, lookupCount_nil] using h

/-- C10: both post-filters are idempotent: applying ConfidenceFilter.filter or
DiversityFilter.filter twice gives the same list as applying it once. -/
theorem claim_C10_filters_idempotent :
    ∀ (min_score : ℚ) (cap : Nat) (results : List SearchResult),
      confidence_filter min_score (confidence_filter min_score results)
        = confidence_filter min_score results
      ∧ diversity_filter cap (diversity_filter cap results)
        = diversity_filter cap results := by
  intro min_score cap results
  constructor
  · simp [confidence_filter, List.filter_filter]
  · show diversityAux cap [] (diversity_filter cap results) = diversity_filter cap results
    apply diversityAux_all_kept
    intro fp
    have h := diversityAux_filter_eq cap fp results []
    simp only [lookupCount_nil, Nat.sub_zero] at h
    rw [lookupCount_nil, Nat.zero_add]
    show ((diversityAux cap [] results).filter (fun r => r.file_path == fp)).length ≤ cap
    rw [h, List.length_take]
    exact min_le_left _ _

/-! ## CodeReranker sub-scores (src/codebase/retrieval/reranker.py)

The name splitter in _compute_name_match_score uses the Python regex
findall(r"[A-Z]?[a-z]+|[A-Z]+(?=[A-Z][a-z]|\b)", name).  The functions below
implement exactly that regex scan (left to right, leftmost alternative first,
greedy with backtracking for the lookahead, advancing one character on
failure); the character classes are the ASCII ones the source relies on. -/

def isUpperChar (c : Char) : Bool := 'A' ≤ c && c ≤ 'Z'

def isLowerChar (c : Char) : Bool := 'a' ≤ c && c ≤ 'z'

/-- Python regex word character (ASCII): letter, digit or underscore. -/
def isWordChar (c : Char) : Bool := c.isAlphanum || c == '_'

/-- Length matched by the first regex alternative [A-Z]?[a-z]+ at this position. -/
def branch1Len : List Char → Option Nat
  | [] => none
  | c :: cs =>
    if isLowerChar c then some (1 + (cs.takeWhile isLowerChar).length)
    else if isUpperChar c then
      match cs with
      | d :: ds => if isLowerChar d then some (2 + (ds.takeWhile isLowerChar).length) else none
      | [] => none
    else none

/-- The lookahead ( ?=[A-Z][a-z]|\b ) evaluated at the rest of the input; the
character before the lookahead position is an uppercase letter, hence a word
character, so the word boundary holds exactly when the rest does not start
with a word character. -/
def camelLookahead : List Char → Bool
  | [] => true
  | [a] => !(isWordChar a)
  | a :: b :: _ => (isUpperChar a && isLowerChar b) || !(isWordChar a)

/-- Greedy-with-backtracking match length for [A-Z]+(?=[A-Z][a-z]|\b): the
largest j between 1 and the number of leading uppercase letters such that the
lookahead holds after j characters. -/
def branch2Aux (cs : List Char) : Nat → Option Nat
  | 0 => none
  | j + 1 => if camelLookahead (cs.drop (j + 1)) then some (j + 1) else branch2Aux cs j

def branch2Len (cs : List Char) : Option Nat :=
  branch2Aux cs (cs.takeWhile isUpperChar).length

/-- Scan for re.findall: try alternative 1, then alternative 2, else advance one
character.  The fuel argument (initialised to the input length) only serves
structural termination; every step consumes at least one character. -/
def camelAux : Nat → List Char → List (List Char)
  | 0, _ => []
  | _, [] => []
  | fuel + 1, c :: cs =>
    match branch1Len (c :: cs) with
    | some j => (c :: cs).take j :: camelAux fuel ((c :: cs).drop j)
    | none =>
      match branch2Len (c :: cs) with
      | some j => (c :: cs).take j :: camelAux fuel ((c :: cs).drop j)
      | none => camelAux fuel cs

/-- re.findall(r"[A-Z]?[a-z]+|[A-Z]+(?=[A-Z][a-z]|\b)", name). -/
def camelParts (name : String) : List String :=
  (camelAux name.data.length name.data).map String.mk

/-- Stop-word list of CodeReranker._extract_keywords. -/
def stop_words : List String :=
  ["the", "a", "an", "and", "or", "but", "in", "on", "at", "to", "for",
   "of", "with", "by", "from", "as", "is", "was", "are", "were", "been",
   "be", "have", "has", "had", "do", "does", "did", "will", "would",
   "could", "should", "may", "might", "must", "can", "that", "this",
   "these", "those", "i", "you", "he", "she", "it", "we", "they",
   "find", "show", "get", "search", "look", "where", "what", "how"]

/-- re.findall(r"\b\w+\b", s): the maximal runs of word characters. -/
def wordRuns (s : String) : List String :=
  ((splitByAux (fun c => !(isWordChar c)) [] s.data).map String.mk).filter
    (fun w => !w.isEmpty)

/-- CodeReranker._extract_keywords: lowercase, tokenize, drop stop words and
tokens of length at most 2. -/
def extract_keywords (query : String) : List String :=
  let query_lower := pyLower query
  let words := wordRuns query_lower
  words.filter (fun w => !(stop_words.contains w) && decide (2 < w.length))

/-- CodeReranker._fuzzy_match: Jaccard similarity of the character sets,
compared against the threshold (default 0.8). -/
def fuzzy_match (s1 s2 : String) (threshold : ℚ := 4/5) : Bool :=
  if s1.isEmpty || s2.isEmpty then false
  else
    let set1 := s1.data.dedup
    let set2 := s2.data.dedup
    let inter := set1.filter (fun c => set2.contains c)
    let union := set1 ++ set2.filter (fun c => !(set1.contains c))
    if union.isEmpty then false
    else decide (threshold ≤ (inter.length : ℚ) / (union.length : ℚ))

/-- CodeReranker._compute_name_match_score. -/
def compute_name_match_score (name : String) (query_keywords : List String) : ℚ :=
  if name.isEmpty || query_keywords.isEmpty then 0
  else
    let name_lower := pyLower name
    let name_parts := (camelParts name).map pyLower ++ pySplitOnChar '_' name_lower
    let score := query_keywords.foldl (fun score keyword =>
      let keyword_lower := pyLower keyword
      if keyword_lower == name_lower then score + 1
      else if name_parts.contains keyword_lower then score + 4/5
      else if pyIn keyword_lower name_lower then score + 1/2
      else if fuzzy_match keyword_lower name_lower then score + 3/10
      else score) 0
    let score := score / (query_keywords.length : ℚ)
    min score 1

/-- Preference table of CodeReranker._compute_chunk_type_score, in the
iteration order of the Python dict. -/
def chunk_type_preferences : List (String × List String) :=
  [("function", ["function", "method", "def", "func"]),
   ("class", ["class", "object", "type"]),
   ("method", ["method", "member function"])]

/-- One iteration of the preference loop: some score on early return. -/
def chunkKeyScore (chunk_type : String) (key : String) (triggered : Bool) : Option ℚ :=
  if triggered then
    if chunk_type == key then some 1
    else if (chunk_type == "function" || chunk_type == "method")
        && (key == "function" || key == "method") then some (7/10)
    else none
  else none

/-- Fallback table: default preference by chunk type. -/
def defaultTypeScore (chunk_type : String) : ℚ :=
  if chunk_type == "function" then 4/5
  else if chunk_type == "class" then 7/10
  else if chunk_type == "method" then 3/5
  else if chunk_type == "text" then 3/10
  else 1/2

/-- CodeReranker._compute_chunk_type_score: walk the preference table in order,
returning on the first triggered key that matches exactly (1.0) or
cross-matches function/method (0.7); otherwise fall through to the defaults. -/
def compute_chunk_type_score (chunk_type query : String) : ℚ :=
  let query_lower := pyLower query
  let loop := chunk_type_preferences.foldl
    (fun acc p =>
      match acc with
      | some s => some s
      | none => chunkKeyScore chunk_type p.1 (p.2.any (fun kw => pyIn kw query_lower)))
    none
  match loop with
  | some s => s
  | none => defaultTypeScore chunk_type

/-- Evaluation of the name-match sub-score on the spec example: query
"parse user data" against candidate name parse_user_data gives 0.8 (every
keyword is a split-part match worth 0.8, averaged over three keywords). -/
theorem name_match_parse_user_data_eval :
    compute_name_match_score "parse_user_data" (extract_keywords "parse user data") = 4/5 := by
  have hk : extract_keywords "parse user data" = ["parse", "user", "data"] := by decide
  have hname : pyLower "parse_user_data" = "parse_user_data" := by decide
  have hparts : (camelParts "parse_user_data").map pyLower
      ++ pySplitOnChar '_' "parse_user_data"
      = ["parse", "user", "data", "parse", "user", "data"] := by decide
  have h1 : pyLower "parse" = "parse" := by decide
  have h2 : pyLower "user" = "user" := by decide
  have h3 : pyLower "data" = "data" := by decide
  rw [hk]
  simp only [compute_name_match_score, hname, hparts]
  norm_num [h1, h2, h3, (by decide : "parse_user_data".isEmpty = false),
    (by decide : ¬("parse" = "parse_user_data")), (by decide : ¬("user" = "parse_user_data")),
    (by decide : ¬("data" = "parse_user_data"))]

/-- C5 counterexample: for query "parse user data" and candidate name
parse_user_data the name-match sub-score is not 1.0 as the claim states. -/
theorem claim_C5_counterexample :
    compute_name_match_score "parse_user_data" (extract_keywords "parse user data") ≠ 1 := by
  rw [name_match_parse_user_data_eval]
  norm_num

/-- C5 (amended): for query "parse user data" and candidate parse_user_data the
extracted keywords are parse, user, data, each scores a split-part match of
0.8, and the averaged, capped name-match sub-score equals 0.8 (not 1.0). -/
theorem claim_C5_name_match :
    extract_keywords "parse user data" = ["parse", "user", "data"]
    ∧ compute_name_match_score "parse_user_data" (extract_keywords "parse user data") = 4/5 :=
  ⟨by decide, name_match_parse_user_data_eval⟩

/-- C6 counterexample: the query "find the method foo" contains the trigger
word "method", yet a candidate of chunk_type method does not get the
exact-match score 1.0 (the function key, whose trigger list also contains
"method", fires first and returns the cross-match score). -/
theorem claim_C6_counterexample :
    compute_chunk_type_score "method" "find the method foo" ≠ 1 := by
  simp [compute_chunk_type_score, chunk_type_preferences, List.foldl, chunkKeyScore,
    (by decide : (["function", "method", "def", "func"].any
      (fun kw => pyIn kw (pyLower "find the method foo"))) = true),
    (by decide : ¬("method" = "function"))]
  norm_num

/-- C6 (amended): the preference keys are checked in the fixed order function,
class, method; the first key with a trigger-word hit awards 1.0 on an exact
chunk_type match and 0.7 on a function/method cross-match, otherwise later
keys and then the defaults apply (function 0.8, class 0.7, method 0.6, text
0.3, anything else 0.5).  Because "method" is among the function key's
triggers, a query containing "method" gives a candidate of chunk_type method
the cross-match score 0.7, not 1.0; a query with no trigger words falls
through to the defaults; a query triggering only the class key still awards
1.0 to a class candidate. -/
theorem claim_C6_chunk_type_score :
    (∀ ct q : String,
        (∀ p ∈ chunk_type_preferences, ∀ kw ∈ p.2, pyIn kw (pyLower q) = false) →
        compute_chunk_type_score ct q = defaultTypeScore ct)
    ∧ (∀ q : String, pyIn "method" (pyLower q) = true →
        compute_chunk_type_score "method" q = 7/10)
    ∧ (∀ q : String,
        (["function", "method", "def", "func"].any fun kw => pyIn kw (pyLower q)) = true →
        compute_chunk_type_score "function" q = 1)
    ∧ compute_chunk_type_score "class" "show class Foo" = 1
    ∧ defaultTypeScore "function" = 4/5 ∧ defaultTypeScore "class" = 7/10
    ∧ defaultTypeScore "method" = 3/5 ∧ defaultTypeScore "text" = 3/10
    ∧ defaultTypeScore "widget" = 1/2 := by
  refine ⟨?_, ?_, ?_, ?_, ?_, ?_, ?_, ?_, ?_⟩
  · intro ct q hno
    have h1 : (["function", "method", "def", "func"].any fun kw => pyIn kw (pyLower q)) = false := by
      apply List.any_eq_false.mpr
      intro kw hkw
      simp [hno ("function", ["function", "method", "def", "func"])
        (by simp [chunk_type_preferences]) kw hkw]
    have h2 : (["class", "object", "type"].any fun kw => pyIn kw (pyLower q)) = false := by
      apply List.any_eq_false.mpr
      intro kw hkw
      simp [hno ("class", ["class", "object", "type"])
        (by simp [chunk_type_preferences]) kw hkw]
    have h3 : (["method", "member function"].any fun kw => pyIn kw (pyLower q)) = false := by
      apply List.any_eq_false.mpr
      intro kw hkw
      simp [hno ("method", ["method", "member function"])
        (by simp [chunk_type_preferences]) kw hkw]
    simp [compute_chunk_type_score, chunk_type_preferences, List.foldl, h1, h2, h3, chunkKeyScore]
  · intro q hq
    have h1 : (["function", "method", "def", "func"].any fun kw => pyIn kw (pyLower q)) = true := by
      simp [List.any_eq_true]
      exact Or.inr (Or.inl hq)
    simp [compute_chunk_type_score, chunk_type_preferences, List.foldl, h1, chunkKeyScore]
  · intro q hq
    simp [compute_chunk_type_score, chunk_type_preferences, List.foldl, hq, chunkKeyScore]
  · simp [compute_chunk_type_score, chunk_type_preferences, List.foldl, chunkKeyScore,
      (by decide : (["function", "method", "def", "func"].any
        (fun kw => pyIn kw (pyLower "show class Foo"))) = false),
      (by decide : (["class", "object", "type"].any
        (fun kw => pyIn kw (pyLower "show class Foo"))) = true)]
  · rfl
  · rfl
  · rfl
  · rfl
  · rfl

/-- Witness for C6 at concrete inputs: the no-trigger query "zzz qqq" gets the
default text score, and "find the method foo" exercises the method-trigger
cross-match and the function exact match. -/
theorem claim_C6_witness :
    compute_chunk_type_score "text" "zzz qqq" = 3/10
    ∧ compute_chunk_type_score "method" "find the method foo" = 7/10
    ∧ compute_chunk_type_score "function" "find the method foo" = 1 := by
  refine ⟨?_, ?_, ?_⟩
  · have h := claim_C6_chunk_type_score.1 "text" "zzz qqq" (by decide)
    rw [h]
    rfl
  · exact claim_C6_chunk_type_score.2.1 "find the method foo" (by decide)
  · exact claim_C6_chunk_type_score.2.2.1 "find the method foo" (by decide)

/-! ## Search pipeline (src/codebase/retrieval/search.py, hyde.py)

SemanticSearch holds its collaborators (embedding generator, vector store,
HyDE generator with its generation backend, translation agent); they are
modelled as the oracle fields of Ports.  Collaborator calls that can raise
across the orchestrator boundary live in an Except monad; the generation
backend catches its own exceptions in the source (_generate_with_gemini /
_generate_with_openai return None on failure), so it is a total function
into Option. -/

abbrev Filters := Option (List (String × String))

structure Ports where
  generate_embedding : String → Bool → Except String (Option (List ℚ))
  vs_search : String → List ℚ → Nat → Filters → Except String (List RawRecord)
  vs_search_by_description : String → List ℚ → Nat → Filters → Except String (List RawRecord)
  translation_agent : Option (String → Option String)
  hyde_present : Bool
  hyde_enabled : Bool
  hyde_client : Bool
  backend : String → String → Option String

/-- SemanticSearch._semantic_search: embed the query (for_query selects the
embedding mode) and run a nearest-neighbor search; a null embedding yields an
empty list; the distance is converted to a similarity via 1 - score. -/
def semantic_search (S : Ports) (query codebase_name : String) (top_k : Nat)
    (filters : Filters) (for_query : Bool := true) : Except String (List SearchResult) := do
  let embedding_result ← S.generate_embedding query for_query
  match embedding_result with
  | none => return []
  | some embedding =>
    let raw_results ← S.vs_search codebase_name embedding top_k filters
    return raw_results.map (fun r =>
      { id := r.id, content := r.text, chunk_type := r.chunk_type, name := r.name,
        file_path := r.file_path, language := r.language, line_start := r.line_start,
        line_end := r.line_end, parent_name := r.parent_name, description := r.description,
        score := 1 - r.score, metadata := [] })

/-- Keyword score of one record: 1 per query word contained in the lowercased
content plus 2 per query word contained in the lowercased name. -/
def kwRecordScore (query_words : List String) (r : RawRecord) : ℚ :=
  let content_lower := pyLower r.text
  let name_lower := pyLower r.name
  let content_score : ℚ := ((query_words.filter (fun word => pyIn word content_lower)).length : ℚ)
  let name_score : ℚ := 2 * ((query_words.filter (fun word => pyIn word name_lower)).length : ℚ)
  content_score + name_score

/-- Loop body of _keyword_search: convert a record to a scored SearchResult
when its keyword score is positive. -/
def kwScoredResult (query_words : List String) (r : RawRecord) : Option SearchResult :=
  let total_score := kwRecordScore query_words r
  if 0 < total_score then
    some { id := r.id, content := r.text, chunk_type := r.chunk_type, name := r.name,
           file_path := r.file_path, language := r.language, line_start := r.line_start,
           line_end := r.line_end, parent_name := r.parent_name, description := r.description,
           score := total_score,
           metadata := [("keyword_matches", MetaVal.num total_score)] }
  else none

/-- SemanticSearch._keyword_search: fetch up to 1000 candidates with a dummy
all-zero query vector, score them lexically, keep positive scores, sort
descending and truncate to top_k. -/
def keyword_search (S : Ports) (query codebase_name : String) (top_k : Nat)
    (filters : Filters) : Except String (List SearchResult) := do
  let all_results ← S.vs_search codebase_name (List.replicate 768 0) 1000 filters
  let query_words := pySplitWs (pyLower query)
  let scored_results := all_results.filterMap (kwScoredResult query_words)
  return (sortDescBy (fun x => x.score) scored_results).take top_k

/-- SemanticSearch._description_search: optionally translate the query through
the translation agent, embed it as a natural-language query, and search the
description-embedding space. -/
def description_search (S : Ports) (query codebase_name : String) (top_k : Nat)
    (filters : Filters) : Except String (List SearchResult) := do
  let original_query := query
  let translated_query :=
    match S.translation_agent with
    | none => query
    | some run =>
      match run ("Translate this search query to English: " ++ query) with
      | some content => if content.isEmpty then query else pyStrip content
      | none => query
  let embedding_result ← S.generate_embedding translated_query true
  match embedding_result with
  | none => return []
  | some embedding =>
    let raw_results ← S.vs_search_by_description codebase_name embedding top_k filters
    return raw_results.map (fun r =>
      { id := r.id, content := r.text, chunk_type := r.chunk_type, name := r.name,
        file_path := r.file_path, language := r.language, line_start := r.line_start,
        line_end := r.line_end, parent_name := r.parent_name, description := r.description,
        score := 1 - r.score,
        metadata := [("search_method", MetaVal.str "description"),
                     ("original_query", MetaVal.str original_query),
                     ("translated_query",
                       if original_query ≠ translated_query then MetaVal.str translated_query
                       else MetaVal.null)] })

/-! ## Hybrid search: id-keyed combination dict -/

structure HybridEntry where
  result : SearchResult
  semantic_score : ℚ
  keyword_score : ℚ
deriving DecidableEq

/-- Insert or overwrite the entry for this id with the semantic leg's data
(Python combined_results[result.id] = dict with keyword_score 0). -/
def upsertSemantic : List HybridEntry → SearchResult → ℚ → List HybridEntry
  | [], r, s => [⟨r, s, 0⟩]
  | e :: es, r, s =>
    if e.result.id == r.id then ⟨r, s, 0⟩ :: es else e :: upsertSemantic es r s

/-- Set the keyword score on an existing entry, or append a fresh entry with
semantic score 0. -/
def upsertKeyword : List HybridEntry → SearchResult → ℚ → List HybridEntry
  | [], r, s => [⟨r, 0, s⟩]
  | e :: es, r, s =>
    if e.result.id == r.id then { e with keyword_score := s } :: es
    else e :: upsertKeyword es r s

/-- Loop over the semantic leg with position-decayed scores
score * (1 - i / len). -/
def hybridSemPass (len : ℚ) : List HybridEntry → Nat → List SearchResult → List HybridEntry
  | acc, _, [] => acc
  | acc, i, r :: rs =>
    hybridSemPass len (upsertSemantic acc r (r.score * (1 - (i : ℚ) / len))) (i + 1) rs

/-- Loop over the keyword leg with position-decayed scores. -/
def hybridKwPass (len : ℚ) : List HybridEntry → Nat → List SearchResult → List HybridEntry
  | acc, _, [] => acc
  | acc, i, r :: rs =>
    hybridKwPass len (upsertKeyword acc r (r.score * (1 - (i : ℚ) / len))) (i + 1) rs

/-- SemanticSearch._hybrid_search: fetch both legs at 2 * top_k, combine by id
with 0.7 * semantic + 0.3 * keyword of the position-decayed scores, sort
descending, truncate to top_k. -/
def hybrid_search (S : Ports) (query codebase_name : String) (top_k : Nat)
    (filters : Filters) : Except String (List SearchResult) := do
  let semantic_results ← semantic_search S query codebase_name (top_k * 2) filters true
  let keyword_results ← keyword_search S query codebase_name (top_k * 2) filters
  let combined := hybridSemPass (semantic_results.length : ℚ) [] 0 semantic_results
  let combined := hybridKwPass (keyword_results.length : ℚ) combined 0 keyword_results
  let final_results := combined.map (fun e =>
    { e.result with
        score := 7/10 * e.semantic_score + 3/10 * e.keyword_score,
        metadata := metaUpdate e.result.metadata
          [("semantic_score", MetaVal.num e.semantic_score),
           ("keyword_score", MetaVal.num e.keyword_score),
           ("search_type", MetaVal.str "hybrid")] })
  return (sortDescBy (fun x => x.score) final_results).take top_k

/-! ## Reciprocal rank fusion -/

structure RRFEntry where
  result : SearchResult
  score : ℚ
deriving DecidableEq

/-- Accumulate one contribution into the id-keyed running-score dict; the
first occurrence's result object is kept. -/
def rrfAdd : List RRFEntry → SearchResult → ℚ → List RRFEntry
  | [], r, s => [⟨r, s⟩]
  | e :: es, r, s =>
    if e.result.id == r.id then { e with score := e.score + s } :: es
    else e :: rrfAdd es r s

/-- Loop over one ranked list: rank is 1-indexed (Python enumerate(_, start=1))
and each result contributes weight * (1 / (k + rank)). -/
def rrfRankFold (k w : ℚ) : List RRFEntry → Nat → List SearchResult → List RRFEntry
  | acc, _, [] => acc
  | acc, rank, r :: rs =>
    rrfRankFold k w (rrfAdd acc r (w * (1 / (k + (rank : ℚ))))) (rank + 1) rs

/-- SemanticSearch._reciprocal_rank_fusion: weights default to uniform 1.0,
k defaults to 60; sort by accumulated score descending (stable), overwrite
each result's score and record it in metadata under rrf_score. -/
def reciprocal_rank_fusion (result_lists : List (List SearchResult))
    (weights : Option (List ℚ) := none) (k : ℚ := 60) : List SearchResult :=
  let ws := match weights with
    | none => List.replicate result_lists.length 1
    | some w => w
  let rrf_scores := (result_lists.zip ws).foldl (fun acc p => rrfRankFold k p.2 acc 1 p.1) []
  let ranked := sortDescBy (fun e => e.score) rrf_scores
  ranked.map (fun e =>
    { e.result with
        score := e.score,
        metadata := metaSet e.result.metadata "rrf_score" (MetaVal.num e.score) })

/-! ## HyDE generation (src/codebase/retrieval/hyde.py, prompts.py) -/

def HYDE_SYSTEM_PROMPT : String :=
  "You are an expert software engineer. Your task is to predict code that answers the given query.\n\nInstructions:\n1. Analyze the query carefully.\n2. Think through the solution step-by-step.\n3. Generate concise, idiomatic code that addresses the query.\n4. Include specific method names, class names, and key concepts in your response.\n5. If applicable, suggest modern libraries or best practices for the given task.\n6. You may guess the language based on the context provided.\n7. Focus on the structure and key elements rather than complete implementation.\n\nOutput format:\n- Provide only the predicted code snippet.\n- Do not include any explanatory text outside the code.\n- Include relevant function signatures, class definitions, and key logic.\n- Add brief inline comments for important parts.\n\nExample:\nQuery: \"function that authenticates users\"\nOutput:\n```python\ndef authenticate_user(username: str, password: str) -> bool:\n    # Validate credentials against database\n    user = database.get_user(username)\n    if user and verify_password(password, user.password_hash):\n        return True\n    return False\n```\n"

def HYDE_V2_SYSTEM_PROMPT_format (query context : String) : String :=
  "You are an expert software engineer. Your task is to enhance the original query: " ++ query ++ " using the provided context: " ++ context ++ ".\n\nInstructions:\n1. Analyze the query and context thoroughly.\n2. Expand the query with relevant code-specific details:\n   - For code-related queries: Include precise method names, class names, and key concepts.\n   - For general queries: Reference important files like README.md or configuration files.\n   - For method-specific queries: Predict potential implementation details and suggest modern, relevant libraries.\n3. Incorporate keywords from the context that are most pertinent to answering the query.\n4. Add any crucial terminology or best practices that might be relevant.\n5. Ensure the enhanced code matches the style and patterns found in the context.\n6. You may infer the language and coding conventions from the context provided.\n7. Focus on realistic implementation that would exist in the codebase.\n\nOutput format:\n- Provide only the enhanced code snippet.\n- Do not include any explanatory text or additional commentary.\n- Match the style and naming conventions from the context.\n- Include relevant imports, method signatures, and implementation details.\n\nExample:\nOriginal Query: \"user authentication function\"\nContext: \"class UserService: def login(self, email, password): ...\"\nOutput:\n```python\nclass UserService:\n    def authenticate(self, email: str, password: str) -> Optional[User]:\n        # Hash password and verify against database\n        user = self.user_repository.find_by_email(email)\n        if user and bcrypt.verify(password, user.password_hash):\n            # Create session token\n            token = self.token_service.generate_token(user.id)\n            return user\n        return None\n```\n"

def HYDE_QUICK_PROMPT_format (query : String) : String :=
  "You are an expert software engineer. Generate a brief code snippet that represents: " ++ query ++ "\n\nFocus on:\n- Key function/class names\n- Important method signatures\n- Core logic patterns\n\nOutput only the code, no explanations."
/-- HyDEGenerator.is_enabled: enabled flag set and a generation client present. -/
def hyde_is_enabled (S : Ports) : Bool := S.hyde_enabled && S.hyde_client

/-- SemanticSearch's availability test self.hyde_generator and
self.hyde_generator.is_enabled(). -/
def hyde_available (S : Ports) : Bool := S.hyde_present && hyde_is_enabled S

/-- HyDEGenerator.generate_hyde_query (stage 1).  When disabled it returns the
original query; when the backend yields text it returns it; when the backend
fails (None or an exception, both caught) it returns the original query. -/
def generate_hyde_query (S : Ports) (query : String) : Option String :=
  if !(hyde_is_enabled S) then some query
  else
    match S.backend HYDE_SYSTEM_PROMPT query with
    | some hyde_query => if hyde_query.isEmpty then some query else some hyde_query
    | none => some query

/-- HyDEGenerator.generate_hyde_query_v2 (stage 2).  When disabled or on
backend failure it returns the stage-1 query. -/
def generate_hyde_query_v2 (S : Ports) (original_query context hyde_query_v1 : String) :
    Option String :=
  if !(hyde_is_enabled S) then some hyde_query_v1
  else
    let prompt := HYDE_V2_SYSTEM_PROMPT_format original_query (pyTake context 3000)
    let user_message := "Predict the answer to the query: " ++ hyde_query_v1
    match S.backend prompt user_message with
    | some hyde_query_v2 =>
      if hyde_query_v2.isEmpty then some hyde_query_v1 else some hyde_query_v2
    | none => some hyde_query_v1

/-- HyDEGenerator.generate_quick_hyde: returns the backend output directly
(which may be None); only a raised exception is replaced by the query, and the
backend wrappers already catch their own exceptions. -/
def generate_quick_hyde (S : Ports) (query : String) : Option String :=
  if !(hyde_is_enabled S) then some query
  else S.backend "" (HYDE_QUICK_PROMPT_format query)

/-- SemanticSearch._build_temp_context: concatenate file path, name,
description snippet and content of the top five results. -/
def build_temp_context (results : List SearchResult) : String :=
  let context_parts := (results.take 5).foldl (fun acc r =>
    let acc := acc ++ ["# File: " ++ r.file_path]
    let acc := if !r.name.isEmpty then acc ++ ["# Name: " ++ r.name] else acc
    let acc := match r.description with
      | some d => if !d.isEmpty then acc ++ ["# Description: " ++ pyTake d 200] else acc
      | none => acc
    acc ++ [r.content, ""]) []
  pyJoin "\n" context_parts

/-- SemanticSearch._hyde_search (two-stage HyDE).  A falsy stage-1 query falls
back to plain semantic search; an empty stage-1 search returns []; a falsy
stage-2 query returns the stage-1 results truncated to top_k; otherwise the
stage-2 query is searched at 2 * top_k, tagged, and truncated to top_k. -/
def hyde_search (S : Ports) (query codebase_name : String) (top_k : Nat)
    (filters : Filters) : Except String (List SearchResult) := do
  match generate_hyde_query S query with
  | none => semantic_search S query codebase_name top_k filters true
  | some hyde_query_v1 =>
    if hyde_query_v1.isEmpty then semantic_search S query codebase_name top_k filters true
    else do
      let initial_results ← semantic_search S hyde_query_v1 codebase_name 5 filters false
      if initial_results.isEmpty then return []
      else
        let context := build_temp_context initial_results
        match generate_hyde_query_v2 S query context hyde_query_v1 with
        | none => return initial_results.take top_k
        | some hyde_query_v2 =>
          if hyde_query_v2.isEmpty then return initial_results.take top_k
          else do
            let final_results ← semantic_search S hyde_query_v2 codebase_name (top_k * 2)
              filters false
            let tagged := final_results.map (fun r =>
              { r with
                  metadata := metaUpdate r.metadata
                    [("search_method", MetaVal.str "hyde"),
                     ("hyde_v1_length", MetaVal.num (hyde_query_v1.length : ℚ)),
                     ("hyde_v2_length", MetaVal.num (hyde_query_v2.length : ℚ))] })
            return tagged.take top_k

/-- SemanticSearch._hyde_quick_search (one-stage HyDE). -/
def hyde_quick_search (S : Ports) (query codebase_name : String) (top_k : Nat)
    (filters : Filters) : Except String (List SearchResult) := do
  match generate_quick_hyde S query with
  | none => semantic_search S query codebase_name top_k filters true
  | some hyde_query =>
    if hyde_query.isEmpty then semantic_search S query codebase_name top_k filters true
    else do
      let results ← semantic_search S hyde_query codebase_name top_k filters false
      return results.map (fun r =>
        { r with
            metadata := metaUpdate r.metadata
              [("search_method", MetaVal.str "hyde_quick"),
               ("hyde_query_length", MetaVal.num (hyde_query.length : ℚ))] })

/-- SemanticSearch._hyde_hybrid_search: fuse the two-stage HyDE leg and the
description leg by reciprocal rank fusion with weights 0.6 / 0.4 and truncate
to top_k. -/
def hyde_hybrid_search (S : Ports) (query codebase_name : String) (top_k : Nat)
    (filters : Filters) : Except String (List SearchResult) := do
  let hyde_results ← hyde_search S query codebase_name top_k filters
  let description_results ← description_search S query codebase_name top_k filters
  let combined := reciprocal_rank_fusion [hyde_results, description_results]
    (some [3/5, 2/5]) 60
  return combined.take top_k

/-- SemanticSearch.search routing body (the code inside the try block). -/
def searchBody (S : Ports) (query codebase_name : String) (top_k : Nat)
    (filters : Filters) (search_type : String) (use_hyde : Bool) :
    Except String (List SearchResult) :=
  if search_type == "hyde" then
    if hyde_available S then hyde_quick_search S query codebase_name top_k filters
    else semantic_search S query codebase_name top_k filters true
  else if search_type == "hyde_full" then
    if hyde_available S then hyde_search S query codebase_name top_k filters
    else semantic_search S query codebase_name top_k filters true
  else if search_type == "semantic" then
    if use_hyde && hyde_available S then hyde_quick_search S query codebase_name top_k filters
    else semantic_search S query codebase_name top_k filters true
  else if search_type == "hybrid" then
    if use_hyde && hyde_available S then hyde_hybrid_search S query codebase_name top_k filters
    else hybrid_search S query codebase_name top_k filters
  else if search_type == "keyword" then keyword_search S query codebase_name top_k filters
  else if search_type == "description" then description_search S query codebase_name top_k filters
  else semantic_search S query codebase_name top_k filters true

/-- SemanticSearch.search: route on search_type; any exception raised by a
collaborator is caught and turned into an empty result list. -/
def search (S : Ports) (query codebase_name : String) (top_k : Nat)
    (filters : Filters) (search_type : String) (use_hyde : Bool) : List SearchResult :=
  match searchBody S query codebase_name top_k filters search_type use_hyde with
  | .ok results => results
  | .error _ => []

/-! ## Claim-side formulation of reciprocal rank fusion -/

/-- Claim formula: contribution of one ranked list, weight * (1 / (k + rank))
at the 1-indexed rank of the first occurrence of the id, 0 when absent. -/
def rrfContribAux (k w : ℚ) : Nat → List SearchResult → String → ℚ
  | _, [], _ => 0
  | rank, r :: rs, id =>
    if r.id == id then w * (1 / (k + (rank : ℚ))) else rrfContribAux k w (rank + 1) rs id

/-- Claim formula: fused score of an id is the sum of the per-list
contributions, weighted per list. -/
def rrfSpecScore (k : ℚ) (lists : List (List SearchResult)) (ws : List ℚ) (id : String) : ℚ :=
  ((lists.zip ws).map (fun p => rrfContribAux k p.2 1 p.1 id)).sum

/-- The distinct values of a list in order of first occurrence. -/
def firstOccAux (seen : List String) : List String → List String
  | [] => []
  | x :: xs => if seen.contains x then firstOccAux seen xs else x :: firstOccAux (x :: seen) xs

/-- Ids of a family of result lists in order of first occurrence across the
concatenation. -/
def firstOccIds (lists : List (List SearchResult)) : List String :=
  firstOccAux [] ((lists.map (fun l => l.map (fun r => r.id))).flatten)

/-- Ids held by the RRF accumulator, in insertion order. -/
def idsOf (acc : List RRFEntry) : List String := acc.map (fun e => e.result.id)

/-- Running score of an id in the RRF accumulator (0 when absent). -/
def rrfAccScore (acc : List RRFEntry) (id : String) : ℚ :=
  ((acc.find? (fun e => e.result.id == id)).map (fun e => e.score)).getD 0

theorem firstOccAux_congr (s₁ s₂ : List String) (l : List String)
    (h : ∀ a, a ∈ s₁ ↔ a ∈ s₂) : firstOccAux s₁ l = firstOccAux s₂ l := by
  induction l generalizing s₁ s₂ with
  | nil => rfl
  | cons x xs ih =>
    simp only [firstOccAux]
    by_cases hx : x ∈ s₁
    · have hc1 : s₁.contains x = true := by simpa using hx
      have hc2 : s₂.contains x = true := by simpa using (h x).mp hx
      simp only [hc1, hc2, if_true]
      exact ih s₁ s₂ h
    · have hx2 : x ∉ s₂ := fun hc => hx ((h x).mpr hc)
      have hc1 : s₁.contains x = false := by simpa using hx
      have hc2 : s₂.contains x = false := by simpa using hx2
      simp only [hc1, hc2, Bool.false_eq_true, if_false]
      congr 1
      apply ih
      intro a
      simp only [List.mem_cons]
      exact or_congr Iff.rfl (h a)

theorem firstOccAux_append (seen : List String) (a b : List String) :
    firstOccAux seen (a ++ b) = firstOccAux seen a ++ firstOccAux (a ++ seen) b := by
  induction a generalizing seen with
  | nil =>
    simp only [List.nil_append, firstOccAux]
  | cons x xs ih =>
    simp only [List.cons_append, firstOccAux, List.append_eq]
    by_cases hx : x ∈ seen
    · have hc : seen.contains x = true := by simpa using hx
      simp only [hc, if_true]
      rw [ih seen]
      congr 1
      apply firstOccAux_congr
      intro c
      simp only [List.mem_append, List.mem_cons]
      constructor
      · tauto
      · rintro (rfl | hc2 | hc2)
        · exact Or.inr hx
        · exact Or.inl hc2
        · exact Or.inr hc2
    · have hc : seen.contains x = false := by simpa using hx
      simp only [hc, Bool.false_eq_true, if_false]
      rw [ih (x :: seen)]
      simp only [List.cons_append]
      congr 2
      apply firstOccAux_congr
      intro c
      simp only [List.mem_append, List.mem_cons]
      tauto

theorem firstOccAux_nodup_and_fresh (seen : List String) (l : List String) :
    (firstOccAux seen l).Nodup ∧ ∀ x ∈ firstOccAux seen l, x ∉ seen := by
  induction l generalizing seen with
  | nil => simp [firstOccAux]
  | cons x xs ih =>
    simp only [firstOccAux]
    by_cases hx : x ∈ seen
    · have hc : seen.contains x = true := by simpa using hx
      simp only [hc, if_true]
      exact ih seen
    · have hc : seen.contains x = false := by simpa using hx
      simp only [hc, Bool.false_eq_true, if_false]
      rcases ih (x :: seen) with ⟨hnd, hfresh⟩
      constructor
      · refine List.nodup_cons.mpr ⟨?_, hnd⟩
        intro hcm
        exact hfresh x hcm (List.mem_cons_self x seen)
      · intro y hy
        rcases List.mem_cons.mp hy with hy' | hy'
        · exact hy' ▸ hx
        · intro hcm
          exact hfresh y hy' (List.mem_cons.mpr (Or.inr hcm))

theorem rrfAdd_accScore (acc : List RRFEntry) (r : SearchResult) (s : ℚ) (id : String) :
    rrfAccScore (rrfAdd acc r s) id =
      if r.id = id then rrfAccScore acc id + s else rrfAccScore acc id := by
  induction acc with
  | nil =>
    by_cases h : r.id = id
    · have hbe : (r.id == id) = true := by simpa using h
      simp [rrfAdd, rrfAccScore, List.find?, hbe, h]
    · have hbe : (r.id == id) = false := by simpa using h
      simp [rrfAdd, rrfAccScore, List.find?, hbe, h]
  | cons e es ih =>
    by_cases he : e.result.id = r.id
    · have hbe : (e.result.id == r.id) = true := by simpa using he
      simp only [rrfAdd, hbe, if_true]
      by_cases hid : r.id = id
      · have h1 : (e.result.id == id) = true := by simp [he, hid]
        simp [rrfAccScore, List.find?_cons, h1, hid]
      · have h1 : (e.result.id == id) = false := by simp [he, hid]
        simp [rrfAccScore, List.find?_cons, h1, hid]
    · have hbe : (e.result.id == r.id) = false := by simpa using he
      simp only [rrfAdd, hbe, Bool.false_eq_true, if_false]
      by_cases h1 : e.result.id = id
      · have hid : ¬ (r.id = id) := fun hc => he (by rw [hc, h1])
        have h1b : (e.result.id == id) = true := by simpa using h1
        simp [rrfAccScore, List.find?_cons, h1b, hid]
      · have h1b : (e.result.id == id) = false := by simpa using h1
        simp only [rrfAccScore, List.find?_cons, h1b] at ih ⊢
        exact ih

theorem rrfAdd_ids_mem (acc : List RRFEntry) (r : SearchResult) (s : ℚ)
    (h : r.id ∈ idsOf acc) : idsOf (rrfAdd acc r s) = idsOf acc := by
  induction acc with
  | nil => simp [idsOf] at h
  | cons e es ih =>
    by_cases he : e.result.id = r.id
    · have hbe : (e.result.id == r.id) = true := by simpa using he
      simp [rrfAdd, hbe, idsOf, he]
    · have hbe : (e.result.id == r.id) = false := by simpa using he
      have hmem : r.id ∈ idsOf es := by
        simp only [idsOf, List.map_cons, List.mem_cons] at h
        rcases h with h | h
        · exact absurd h.symm he
        · exact h
      simp only [rrfAdd, hbe, Bool.false_eq_true, if_false, idsOf, List.map_cons]
      rw [show (rrfAdd es r s).map (fun e => e.result.id) = idsOf (rrfAdd es r s) from rfl,
        ih hmem]
      rfl

theorem rrfAdd_ids_new (acc : List RRFEntry) (r : SearchResult) (s : ℚ)
    (h : r.id ∉ idsOf acc) : idsOf (rrfAdd acc r s) = idsOf acc ++ [r.id] := by
  induction acc with
  | nil => simp [rrfAdd, idsOf]
  | cons e es ih =>
    have he : ¬ (e.result.id = r.id) := by
      intro hc
      exact h (by simp [idsOf, hc])
    have hbe : (e.result.id == r.id) = false := by simpa using he
    have hmem : r.id ∉ idsOf es := by
      intro hc
      exact h (by simp [idsOf] at hc ⊢; exact Or.inr hc)
    simp only [rrfAdd, hbe, Bool.false_eq_true, if_false, idsOf, List.map_cons]
    rw [show (rrfAdd es r s).map (fun e => e.result.id) = idsOf (rrfAdd es r s) from rfl,
      ih hmem]
    rfl

theorem rrfContribAux_not_mem (k w : ℚ) (rank : Nat) (l : List SearchResult) (id : String)
    (h : id ∉ l.map (fun r => r.id)) : rrfContribAux k w rank l id = 0 := by
  induction l generalizing rank with
  | nil => rfl
  | cons r rs ih =>
    simp only [List.map_cons, List.mem_cons] at h
    push_neg at h
    have hbe : (r.id == id) = false := by
      simpa using fun hc => h.1 hc.symm
    simp only [rrfContribAux, hbe, Bool.false_eq_true, if_false]
    exact ih (rank + 1) h.2

theorem rrfRankFold_accScore (k w : ℚ) (l : List SearchResult) (id : String)
    (hnd : (l.map (fun r => r.id)).Nodup) :
    ∀ (acc : List RRFEntry) (rank : Nat),
      rrfAccScore (rrfRankFold k w acc rank l) id =
        rrfAccScore acc id + rrfContribAux k w rank l id := by
  induction l with
  | nil => intro acc rank; simp [rrfRankFold, rrfContribAux]
  | cons r rs ih =>
    intro acc rank
    simp only [List.map_cons, List.nodup_cons] at hnd
    simp only [rrfRankFold, rrfContribAux]
    rw [ih hnd.2 (rrfAdd acc r (w * (1 / (k + (rank : ℚ))))) (rank + 1)]
    rw [rrfAdd_accScore]
    by_cases hid : r.id = id
    · have hbe : (r.id == id) = true := by simpa using hid
      rw [rrfContribAux_not_mem k w (rank + 1) rs id (hid ▸ hnd.1)]
      simp only [hbe, if_true, hid, beq_self_eq_true, eq_self_iff_true, add_zero]
    · have hbe : (r.id == id) = false := by simpa using hid
      simp only [hbe, Bool.false_eq_true, if_false, hid, if_neg hid]

theorem rrfRankFold_ids (k w : ℚ) (l : List SearchResult) :
    ∀ (acc : List RRFEntry) (rank : Nat),
      idsOf (rrfRankFold k w acc rank l) =
        idsOf acc ++ firstOccAux (idsOf acc) (l.map (fun r => r.id)) := by
  induction l with
  | nil => intro acc rank; simp [rrfRankFold, firstOccAux]
  | cons r rs ih =>
    intro acc rank
    simp only [rrfRankFold, List.map_cons, firstOccAux]
    by_cases hmem : r.id ∈ idsOf acc
    · have hc : (idsOf acc).contains r.id = true := by simpa using hmem
      simp only [hc, if_true]
      rw [ih (rrfAdd acc r (w * (1 / (k + (rank : ℚ))))) (rank + 1),
        rrfAdd_ids_mem acc r _ hmem]
    · have hc : (idsOf acc).contains r.id = false := by simpa using hmem
      simp only [hc, Bool.false_eq_true, if_false]
      rw [ih (rrfAdd acc r (w * (1 / (k + (rank : ℚ))))) (rank + 1),
        rrfAdd_ids_new acc r _ hmem]
      rw [List.append_assoc, List.singleton_append]
      congr 2
      apply firstOccAux_congr
      intro c
      simp only [List.mem_append, List.mem_cons]
      tauto

theorem firstOccAux_mem (seen l : List String) (x : String) :
    x ∈ firstOccAux seen l ↔ x ∈ l ∧ x ∉ seen := by
  induction l generalizing seen with
  | nil => simp [firstOccAux]
  | cons y ys ih =>
    simp only [firstOccAux]
    by_cases hy : y ∈ seen
    · have hc : seen.contains y = true := by simpa using hy
      simp only [hc, if_true, ih, List.mem_cons]
      constructor
      · rintro ⟨h1, h2⟩
        exact ⟨Or.inr h1, h2⟩
      · rintro ⟨h1 | h1, h2⟩
        · exact absurd (h1 ▸ hy) h2
        · exact ⟨h1, h2⟩
    · have hc : seen.contains y = false := by simpa using hy
      simp only [hc, Bool.false_eq_true, if_false, List.mem_cons, ih]
      constructor
      · rintro (rfl | ⟨h1, h2⟩)
        · exact ⟨Or.inl rfl, hy⟩
        · refine ⟨Or.inr h1, ?_⟩
          intro hc2
          exact h2 (Or.inr hc2)
      · rintro ⟨h1 | h1, h2⟩
        · exact Or.inl h1
        · by_cases hxy : x = y
          · exact Or.inl hxy
          · refine Or.inr ⟨h1, ?_⟩
            rintro (hc3 | hc3)
            · exact hxy hc3
            · exact h2 hc3

theorem rrfFold_accScore (k : ℚ) (pairs : List (List SearchResult × ℚ)) (id : String)
    (hnd : ∀ p ∈ pairs, (p.1.map (fun r => r.id)).Nodup) :
    ∀ acc : List RRFEntry,
      rrfAccScore (pairs.foldl (fun acc p => rrfRankFold k p.2 acc 1 p.1) acc) id =
        rrfAccScore acc id + ((pairs.map (fun p => rrfContribAux k p.2 1 p.1 id)).sum) := by
  induction pairs with
  | nil => intro acc; simp
  | cons p ps ih =>
    intro acc
    simp only [List.foldl_cons, List.map_cons, List.sum_cons]
    rw [ih (fun q hq => hnd q (List.mem_cons.mpr (Or.inr hq)))]
    rw [rrfRankFold_accScore k p.2 p.1 id (hnd p (List.mem_cons_self p ps))]
    ring

theorem rrfFold_ids (k : ℚ) (pairs : List (List SearchResult × ℚ)) :
    ∀ acc : List RRFEntry,
      idsOf (pairs.foldl (fun acc p => rrfRankFold k p.2 acc 1 p.1) acc) =
        idsOf acc ++
          firstOccAux (idsOf acc) ((pairs.map (fun p => p.1.map (fun r => r.id))).flatten) := by
  induction pairs with
  | nil => intro acc; simp [firstOccAux]
  | cons p ps ih =>
    intro acc
    simp only [List.foldl_cons, List.map_cons, List.flatten_cons]
    rw [ih, rrfRankFold_ids]
    rw [firstOccAux_append, List.append_assoc]
    congr 1
    congr 1
    apply firstOccAux_congr
    intro c
    simp only [List.mem_append, firstOccAux_mem]
    constructor
    · rintro (hc | ⟨hc1, hc2⟩)
      · exact Or.inr hc
      · exact Or.inl hc1
    · rintro (hc | hc)
      · by_cases hm : c ∈ idsOf acc
        · exact Or.inl hm
        · exact Or.inr ⟨hc, hm⟩
      · exact Or.inl hc

theorem accScore_entry (acc : List RRFEntry) (hnd : (idsOf acc).Nodup) :
    ∀ e ∈ acc, rrfAccScore acc e.result.id = e.score := by
  induction acc with
  | nil => intro e he; simp at he
  | cons a as ih =>
    intro e he
    simp only [idsOf, List.map_cons, List.nodup_cons] at hnd
    rcases List.mem_cons.mp he with rfl | he2
    · simp [rrfAccScore, List.find?_cons]
    · have hne : (a.result.id == e.result.id) = false := by
        have hm : e.result.id ∈ as.map (fun x => x.result.id) :=
          List.mem_map_of_mem (fun x => x.result.id) he2
        simpa using fun hc => hnd.1 (by rw [hc]; exact hm)
      simp only [rrfAccScore, List.find?_cons, hne]
      exact ih hnd.2 e he2

theorem metaGet_metaSet (m : List (String × MetaVal)) (k : String) (v : MetaVal) :
    metaGet (metaSet m k v) k = some v := by
  induction m with
  | nil => simp [metaSet, metaGet, List.find?]
  | cons p ps ih =>
    by_cases hp : p.1 = k
    · have hbe : (p.1 == k) = true := by simpa using hp
      simp [metaSet, hbe, metaGet, List.find?_cons]
    · have hbe : (p.1 == k) = false := by simpa using hp
      simp only [metaSet, hbe, Bool.false_eq_true, if_false, metaGet, List.find?_cons] at ih ⊢
      exact ih

theorem map_filter_comm (f : α → β) (p : β → Bool) (l : List α) :
    (l.map f).filter p = (l.filter (fun a => p (f a))).map f := by
  induction l with
  | nil => rfl
  | cons a as ih =>
    simp only [List.map_cons, List.filter_cons]
    by_cases hp : p (f a) = true <;> simp [hp, ih]

theorem filter_score_map_ids (spec : String → ℚ) (s : ℚ) (acc : List RRFEntry)
    (h : ∀ e ∈ acc, e.score = spec e.result.id) :
    (acc.filter (fun e => decide (e.score = s))).map (fun e => e.result.id) =
      (acc.map (fun e => e.result.id)).filter (fun id => decide (spec id = s)) := by
  induction acc with
  | nil => rfl
  | cons e es ih =>
    have he := h e (List.mem_cons_self e es)
    have hes := fun x hx => h x (List.mem_cons.mpr (Or.inr hx))
    simp only [List.filter_cons, List.map_cons]
    by_cases hs : e.score = s
    · have hs2 : spec e.result.id = s := he ▸ hs
      simp [hs, hs2, List.filter_cons, ih hes]
    · have hs2 : ¬ (spec e.result.id = s) := fun hc => hs (he.symm ▸ (he.trans hc))
      simp [hs, hs2, List.filter_cons, ih hes]

theorem rrf_spec_some (lists : List (List SearchResult)) (ws : List ℚ)
    (hnd : ∀ l ∈ lists, (l.map (fun r => r.id)).Nodup)
    (hw : lists.length ≤ ws.length) :
    (∀ r ∈ reciprocal_rank_fusion lists (some ws) 60,
        r.score = rrfSpecScore 60 lists ws r.id
        ∧ metaGet r.metadata "rrf_score" = some (MetaVal.num r.score))
    ∧ (reciprocal_rank_fusion lists (some ws) 60).Pairwise (fun a b => b.score ≤ a.score)
    ∧ ((reciprocal_rank_fusion lists (some ws) 60).map (fun r => r.id)).Perm (firstOccIds lists)
    ∧ ∀ s : ℚ,
        ((reciprocal_rank_fusion lists (some ws) 60).filter
            (fun r => decide (r.score = s))).map (fun r => r.id)
          = (firstOccIds lists).filter (fun id => decide (rrfSpecScore 60 lists ws id = s)) := by
  have hdef : reciprocal_rank_fusion lists (some ws) 60 =
      (sortDescBy (fun e => e.score)
          ((lists.zip ws).foldl (fun acc p => rrfRankFold 60 p.2 acc 1 p.1) [])).map
        (fun e => { e.result with
            score := e.score,
            metadata := metaSet e.result.metadata "rrf_score" (MetaVal.num e.score) }) := rfl
  set fin := fun e : RRFEntry =>
    { e.result with
        score := e.score,
        metadata := metaSet e.result.metadata "rrf_score" (MetaVal.num e.score) } with hfin
  set accum := (lists.zip ws).foldl (fun acc p => rrfRankFold 60 p.2 acc 1 p.1) []
    with haccum
  have hpairs_nd : ∀ p ∈ lists.zip ws, (p.1.map (fun r => r.id)).Nodup := by
    rintro ⟨a, b⟩ hp
    exact hnd a (List.of_mem_zip hp).1
  have hmapids : (lists.zip ws).map (fun p => p.1.map (fun r => r.id))
      = lists.map (fun l => l.map (fun r => r.id)) := by
    have : (fun p : List SearchResult × ℚ => p.1.map (fun r => r.id))
        = (fun l : List SearchResult => l.map (fun r => r.id)) ∘ Prod.fst := rfl
    rw [this, ← List.map_map, List.map_fst_zip lists ws hw]
  have hids : idsOf accum = firstOccIds lists := by
    rw [haccum, rrfFold_ids 60 (lists.zip ws) []]
    simp only [idsOf, List.map_nil, List.nil_append]
    rw [hmapids]
    rfl
  have hnd_acc : (idsOf accum).Nodup := by
    rw [hids]
    exact (firstOccAux_nodup_and_fresh [] _).1
  have haccsc : ∀ id, rrfAccScore accum id = rrfSpecScore 60 lists ws id := by
    intro id
    have h := rrfFold_accScore 60 (lists.zip ws) id hpairs_nd []
    rw [haccum]
    rw [h]
    simp [rrfAccScore, rrfSpecScore, List.find?]
  have hscore_e : ∀ e ∈ accum, e.score = rrfSpecScore 60 lists ws e.result.id := by
    intro e he
    rw [← haccsc e.result.id]
    exact (accScore_entry accum hnd_acc e he).symm
  refine ⟨?_, ?_, ?_, ?_⟩
  · intro r hr
    rw [hdef] at hr
    rcases List.mem_map.mp hr with ⟨e, he, rfl⟩
    have he2 : e ∈ accum := (sortDescBy_perm (fun e => e.score) accum).mem_iff.mp he
    exact ⟨hscore_e e he2, metaGet_metaSet _ _ _⟩
  · rw [hdef, List.pairwise_map]
    exact sortDescBy_sorted (fun e => e.score) accum
  · rw [hdef, List.map_map]
    have h1 : ((sortDescBy (fun e => e.score) accum).map
        ((fun r : SearchResult => r.id) ∘ fin)).Perm
          (accum.map ((fun r : SearchResult => r.id) ∘ fin)) :=
      (sortDescBy_perm _ _).map _
    refine h1.trans ?_
    rw [show accum.map ((fun r : SearchResult => r.id) ∘ fin) = idsOf accum from rfl, hids]
  · intro s
    rw [hdef]
    rw [map_filter_comm fin (fun r => decide (r.score = s))]
    rw [List.map_map]
    have hp : (fun e : RRFEntry => decide ((fin e).score = s))
        = fun e : RRFEntry => decide (e.score = s) := rfl
    rw [show (fun a : RRFEntry => decide ((fin a).score = s))
        = fun e : RRFEntry => decide (e.score = s) from rfl]
    rw [sortDescBy_filter (fun e : RRFEntry => e.score) accum s]
    rw [show (fun r : SearchResult => r.id) ∘ fin
        = fun e : RRFEntry => e.result.id from rfl]
    rw [filter_score_map_ids (rrfSpecScore 60 lists ws) s accum hscore_e]
    rw [show accum.map (fun e => e.result.id) = idsOf accum from rfl, hids]

/-- C1: for every family of ranked result lists whose per-list ids are unique
and every weight vector (uniform 1.0 when absent, and at least as long as the
family so that no list is dropped), the fused score of every output result
equals the sum over the lists containing its id of weight * (1 / (60 + rank))
with rank 1-indexed, the fused score is written into the result's score and
into its metadata under rrf_score, the output is sorted by fused score
descending, its ids are exactly the input ids, and ties are kept in
first-occurrence input order (for every score value the ids carrying it appear
in first-occurrence order). -/
theorem claim_C1_rrf (lists : List (List SearchResult)) (weights : Option (List ℚ))
    (hnd : ∀ l ∈ lists, (l.map (fun r => r.id)).Nodup)
    (hw : lists.length ≤ (weights.getD (List.replicate lists.length 1)).length) :
    (∀ r ∈ reciprocal_rank_fusion lists weights 60,
        r.score = rrfSpecScore 60 lists (weights.getD (List.replicate lists.length 1)) r.id
        ∧ metaGet r.metadata "rrf_score" = some (MetaVal.num r.score))
    ∧ (reciprocal_rank_fusion lists weights 60).Pairwise (fun a b => b.score ≤ a.score)
    ∧ ((reciprocal_rank_fusion lists weights 60).map (fun r => r.id)).Perm (firstOccIds lists)
    ∧ ∀ s : ℚ,
        ((reciprocal_rank_fusion lists weights 60).filter
            (fun r => decide (r.score = s))).map (fun r => r.id)
          = (firstOccIds lists).filter (fun id =>
              decide (rrfSpecScore 60 lists
                (weights.getD (List.replicate lists.length 1)) id = s)) := by
  cases weights with
  | none => exact rrf_spec_some lists (List.replicate lists.length 1) hnd hw
  | some w => exact rrf_spec_some lists w hnd hw

def c1ListA : List SearchResult := [mkRes "a" "fa.py" 1, mkRes "b" "fb.py" 2]

def c1ListB : List SearchResult := [mkRes "b" "fb.py" 2]

/-- Witness for C1 at a concrete two-list family with an overlapping id. -/
theorem claim_C1_witness :
    (∀ r ∈ reciprocal_rank_fusion [c1ListA, c1ListB] none 60,
        r.score = rrfSpecScore 60 [c1ListA, c1ListB]
          ((none : Option (List ℚ)).getD (List.replicate [c1ListA, c1ListB].length 1)) r.id
        ∧ metaGet r.metadata "rrf_score" = some (MetaVal.num r.score))
    ∧ (reciprocal_rank_fusion [c1ListA, c1ListB] none 60).Pairwise
        (fun a b => b.score ≤ a.score)
    ∧ ((reciprocal_rank_fusion [c1ListA, c1ListB] none 60).map (fun r => r.id)).Perm
        (firstOccIds [c1ListA, c1ListB])
    ∧ ∀ s : ℚ,
        ((reciprocal_rank_fusion [c1ListA, c1ListB] none 60).filter
            (fun r => decide (r.score = s))).map (fun r => r.id)
          = (firstOccIds [c1ListA, c1ListB]).filter (fun id =>
              decide (rrfSpecScore 60 [c1ListA, c1ListB]
                ((none : Option (List ℚ)).getD
                  (List.replicate [c1ListA, c1ListB].length 1)) id = s)) :=
  claim_C1_rrf [c1ListA, c1ListB] none (by decide) (by decide)

/-- C7: keyword search over the pool fetched from the index (up to 1000
records, dummy all-zero query vector): every returned result carries the score
2 per query word contained in its lowercased name plus 1 per query word
contained in its lowercased content, only positive scores are returned, the
output is sorted descending and truncated to top_k (and nothing with a
positive score is dropped when top_k covers the pool), and the empty query
returns the empty list. -/
theorem claim_C7_keyword_search (S : Ports) (query codebase_name : String)
    (top_k : Nat) (filters : Filters) (pool : List RawRecord)
    (hpool : S.vs_search codebase_name (List.replicate 768 0) 1000 filters = Except.ok pool)
    (_hsize : pool.length ≤ 1000) :
    ∃ out, keyword_search S query codebase_name top_k filters = Except.ok out
      ∧ out.Pairwise (fun a b => b.score ≤ a.score)
      ∧ out.length ≤ top_k
      ∧ (∀ r ∈ out, 0 < r.score
          ∧ ∃ raw ∈ pool, r.id = raw.id
            ∧ r.score = kwRecordScore (pySplitWs (pyLower query)) raw)
      ∧ (pool.length ≤ top_k →
          ∀ raw ∈ pool, 0 < kwRecordScore (pySplitWs (pyLower query)) raw →
            ∃ r ∈ out, r.id = raw.id
              ∧ r.score = kwRecordScore (pySplitWs (pyLower query)) raw)
      ∧ (query = "" → out = []) := by
  refine ⟨(sortDescBy (fun x => x.score)
      (pool.filterMap (kwScoredResult (pySplitWs (pyLower query))))).take top_k,
    ?_, ?_, ?_, ?_, ?_, ?_⟩
  · unfold keyword_search
    rw [hpool]
    rfl
  · exact List.Pairwise.sublist (List.take_sublist _ _) (sortDescBy_sorted _ _)
  · simp [List.length_take_le]
  · intro r hr
    have hr2 : r ∈ sortDescBy (fun x => x.score)
        (pool.filterMap (kwScoredResult (pySplitWs (pyLower query)))) :=
      List.mem_of_mem_take hr
    have hr3 := (sortDescBy_perm (fun x : SearchResult => x.score) _).mem_iff.mp hr2
    rcases List.mem_filterMap.mp hr3 with ⟨raw, hraw, heq⟩
    dsimp [kwScoredResult] at heq
    by_cases hpos : 0 < kwRecordScore (pySplitWs (pyLower query)) raw
    · rw [if_pos hpos] at heq
      obtain rfl := Option.some.inj heq
      exact ⟨hpos, raw, hraw, rfl, rfl⟩
    · rw [if_neg hpos] at heq
      cases heq
  · intro hlen raw hraw hpos
    have hfm : kwScoredResult (pySplitWs (pyLower query)) raw
        = some { id := raw.id, content := raw.text, chunk_type := raw.chunk_type,
                 name := raw.name, file_path := raw.file_path, language := raw.language,
                 line_start := raw.line_start, line_end := raw.line_end,
                 parent_name := raw.parent_name, description := raw.description,
                 score := kwRecordScore (pySplitWs (pyLower query)) raw,
                 metadata := [("keyword_matches",
                   MetaVal.num (kwRecordScore (pySplitWs (pyLower query)) raw))] } := by
      dsimp [kwScoredResult]
      rw [if_pos hpos]
    refine ⟨{ id := raw.id, content := raw.text, chunk_type := raw.chunk_type,
              name := raw.name, file_path := raw.file_path, language := raw.language,
              line_start := raw.line_start, line_end := raw.line_end,
              parent_name := raw.parent_name, description := raw.description,
              score := kwRecordScore (pySplitWs (pyLower query)) raw,
              metadata := [("keyword_matches",
                MetaVal.num (kwRecordScore (pySplitWs (pyLower query)) raw))] },
      ?_, rfl, rfl⟩
    have hmem := List.mem_filterMap.mpr ⟨raw, hraw, hfm⟩
    have hmem2 := (sortDescBy_perm (fun x : SearchResult => x.score) _).mem_iff.mpr hmem
    have hlen2 : (sortDescBy (fun x => x.score)
        (pool.filterMap (kwScoredResult (pySplitWs (pyLower query))))).length ≤ top_k := by
      calc (sortDescBy (fun x => x.score)
            (pool.filterMap (kwScoredResult (pySplitWs (pyLower query))))).length
          = (pool.filterMap (kwScoredResult (pySplitWs (pyLower query)))).length :=
            (sortDescBy_perm _ _).length_eq
        _ ≤ pool.length := List.length_filterMap_le _ _
        _ ≤ top_k := hlen
    rw [List.take_of_length_le hlen2]
    exact hmem2
  · intro hq
    subst hq
    have hqw : pySplitWs (pyLower "") = [] := by decide
    rw [hqw]
    have hnone : ∀ raw ∈ pool, kwScoredResult [] raw = none := by
      intro raw _
      simp [kwScoredResult, kwRecordScore]
    rw [List.filterMap_eq_nil_iff.mpr hnone]
    simp [sortDescBy]

/-- Helper constructing a concrete vector-store record for the witnesses. -/
def demoRaw (id name text : String) (dist : ℚ) : RawRecord :=
  { id := id, text := text, chunk_type := "function", name := name, file_path := "f.py",
    language := "python", line_start := 1, line_end := 2, parent_name := none,
    description := none, score := dist }

def c7Pool : List RawRecord := [demoRaw "k1" "data_loader" "loads data" 0]

def c7Ports : Ports :=
  { generate_embedding := fun _ _ => Except.ok (some (List.replicate 768 0)),
    vs_search := fun _ _ _ _ => Except.ok c7Pool,
    vs_search_by_description := fun _ _ _ _ => Except.ok c7Pool,
    translation_agent := none,
    hyde_present := false, hyde_enabled := false, hyde_client := false,
    backend := fun _ _ => none }

/-- Witness for C7 at a concrete one-record pool. -/
theorem claim_C7_witness :
    ∃ out, keyword_search c7Ports "data" "cb" 5 none = Except.ok out
      ∧ out.Pairwise (fun a b => b.score ≤ a.score)
      ∧ out.length ≤ 5
      ∧ (∀ r ∈ out, 0 < r.score
          ∧ ∃ raw ∈ c7Pool, r.id = raw.id
            ∧ r.score = kwRecordScore (pySplitWs (pyLower "data")) raw)
      ∧ (c7Pool.length ≤ 5 →
          ∀ raw ∈ c7Pool, 0 < kwRecordScore (pySplitWs (pyLower "data")) raw →
            ∃ r ∈ out, r.id = raw.id
              ∧ r.score = kwRecordScore (pySplitWs (pyLower "data")) raw)
      ∧ ("data" = "" → out = []) :=
  claim_C7_keyword_search c7Ports "data" "cb" 5 none c7Pool rfl (by decide)

/-- SemanticSearch._semantic_search returns [] when the embedding generator
returns null for the query. -/
theorem semantic_search_embed_none (S : Ports) (query codebase_name : String)
    (top_k : Nat) (filters : Filters) (for_query : Bool)
    (h : S.generate_embedding query for_query = Except.ok none) :
    semantic_search S query codebase_name top_k filters for_query = Except.ok [] := by
  unfold semantic_search
  rw [h]
  rfl

def c4Ports : Ports :=
  { generate_embedding := fun _ _ => Except.ok none,
    vs_search := fun _ _ _ _ => Except.ok c7Pool,
    vs_search_by_description := fun _ _ _ _ => Except.ok c7Pool,
    translation_agent := none,
    hyde_present := false, hyde_enabled := false, hyde_client := false,
    backend := fun _ _ => none }

/-- The result the keyword leg produces from the demo pool for query data. -/
def c4Expected : SearchResult :=
  { id := "k1", content := "loads data", chunk_type := "function",
    name := "data_loader", file_path := "f.py", language := "python",
    line_start := 1, line_end := 2, parent_name := none, description := none,
    score := 3, metadata := [("keyword_matches", MetaVal.num 3)] }

/-- C4 counterexample: with an embedding generator that always returns null,
a keyword-type search still returns a non-empty list, because the keyword leg
never embeds the query; so "embedding failure implies an empty result" fails
for some search types. -/
theorem claim_C4_counterexample :
    c4Ports.generate_embedding "data" true = Except.ok none
    ∧ c4Ports.generate_embedding "data" false = Except.ok none
    ∧ search c4Ports "data" "cb" 5 none "keyword" false ≠ [] := by
  refine ⟨rfl, rfl, ?_⟩
  have h1 : pySplitWs (pyLower "data") = ["data"] := by decide
  have h2 : kwRecordScore ["data"] (demoRaw "k1" "data_loader" "loads data" 0) = 3 := by
    simp only [kwRecordScore, demoRaw]
    norm_num [(by decide : pyIn "data" (pyLower "loads data") = true),
      (by decide : pyIn "data" (pyLower "data_loader") = true)]
  have h3 : kwScoredResult ["data"] (demoRaw "k1" "data_loader" "loads data" 0)
      = some c4Expected := by
    simp only [kwScoredResult, h2]
    norm_num [demoRaw, c4Expected]
  have h4 : keyword_search c4Ports "data" "cb" 5 none = Except.ok [c4Expected] := by
    unfold keyword_search
    rw [show c4Ports.vs_search "cb" (List.replicate 768 0) 1000 none = Except.ok c7Pool
      from rfl]
    show Except.ok _ = _
    rw [h1]
    simp only [c7Pool, List.filterMap_cons, List.filterMap_nil, h3]
    simp [sortDescBy, insertDescBy]
  have h5 : search c4Ports "data" "cb" 5 none "keyword" false = [c4Expected] := by
    unfold search searchBody
    simp only [(by decide : ("keyword" == "hyde") = false),
      (by decide : ("keyword" == "hyde_full") = false),
      (by decide : ("keyword" == "semantic") = false),
      (by decide : ("keyword" == "hybrid") = false),
      (by decide : ("keyword" == "keyword") = true),
      Bool.false_eq_true, if_false, if_true, h4]
  rw [h5]
  simp

/-- C4 (amended): the top-level search never lets a collaborator exception
escape (any error from the routed body is caught and becomes []), and when
the embedding generator returns null for the query, the embedding-dependent
semantic route returns an empty list; search types that do not embed the
query (keyword) may still return results. -/
theorem claim_C4_search_safety :
    (∀ (S : Ports) (query codebase_name : String) (top_k : Nat) (filters : Filters),
        S.generate_embedding query true = Except.ok none →
        search S query codebase_name top_k filters "semantic" false = [])
    ∧ (∀ (S : Ports) (query codebase_name : String) (top_k : Nat) (filters : Filters)
        (search_type : String) (use_hyde : Bool) (err : String),
        searchBody S query codebase_name top_k filters search_type use_hyde
          = Except.error err →
        search S query codebase_name top_k filters search_type use_hyde = []) := by
  constructor
  · intro S query codebase_name top_k filters hembed
    have hbody : searchBody S query codebase_name top_k filters "semantic" false
        = Except.ok [] := by
      unfold searchBody
      simp only [(by decide : ("semantic" == "hyde") = false),
        (by decide : ("semantic" == "hyde_full") = false),
        (by decide : ("semantic" == "semantic") = true),
        Bool.false_eq_true, if_false, if_true, Bool.false_and]
      exact semantic_search_embed_none S query codebase_name top_k filters true hembed
    unfold search
    rw [hbody]
  · intro S query codebase_name top_k filters search_type use_hyde err hbody
    unfold search
    rw [hbody]

def failPorts : Ports :=
  { generate_embedding := fun _ _ => Except.error "embedding backend down",
    vs_search := fun _ _ _ _ => Except.error "index unreachable",
    vs_search_by_description := fun _ _ _ _ => Except.error "index unreachable",
    translation_agent := none,
    hyde_present := false, hyde_enabled := false, hyde_client := false,
    backend := fun _ _ => none }

/-- Witness for C4: a null-embedding semantic search returns [] and a hybrid
search over collaborators that throw returns [] instead of propagating. -/
theorem claim_C4_witness :
    search c4Ports "find auth" "cb" 5 none "semantic" false = []
    ∧ search failPorts "find auth" "cb" 5 none "hybrid" false = [] :=
  ⟨claim_C4_search_safety.1 c4Ports "find auth" "cb" 5 none rfl,
   claim_C4_search_safety.2 failPorts "find auth" "cb" 5 none "hybrid" false
     "embedding backend down" rfl⟩

def c3Ports : Ports :=
  { generate_embedding := fun _ _ => Except.ok (some (List.replicate 768 0)),
    vs_search := fun _ _ _ _ => Except.ok c7Pool,
    vs_search_by_description := fun _ _ _ _ => Except.ok c7Pool,
    translation_agent := none,
    hyde_present := true, hyde_enabled := true, hyde_client := true,
    backend := fun _ _ => none }

/-- Conversion of the demo record by _semantic_search (similarity 1 - 0). -/
def c3PlainResult : SearchResult :=
  { id := "k1", content := "loads data", chunk_type := "function", name := "data_loader",
    file_path := "f.py", language := "python", line_start := 1, line_end := 2,
    parent_name := none, description := none, score := 1 - 0, metadata := [] }

/-- The same result as produced by the two-stage HyDE pipeline, tagged with
HyDE metadata (the original query "find auth" has length 9). -/
def c3HydeResult : SearchResult :=
  { c3PlainResult with
      metadata := [("search_method", MetaVal.str "hyde"),
        ("hyde_v1_length", MetaVal.num (("find auth".length : ℕ) : ℚ)),
        ("hyde_v2_length", MetaVal.num (("find auth".length : ℕ) : ℚ))] }

/-- C3 (code bug, evaluated at the failing input): with the generation backend
failing at both stages on the nonempty query "find auth",
generate_hyde_query returns the original query rather than None (its docstring
says "None if generation fails"), generate_hyde_query_v2 likewise returns the
stage-1 query, and so hyde_search does not fall back to the plain semantic
search of the original query: it runs the full two-stage pipeline, embeds the
original query as a document, and tags its output with HyDE metadata. -/
theorem claim_C3_hyde_failure_policy :
    generate_hyde_query c3Ports "find auth" = some "find auth"
    ∧ generate_hyde_query_v2 c3Ports "find auth"
        (build_temp_context [c3PlainResult]) "find auth" = some "find auth"
    ∧ hyde_search c3Ports "find auth" "cb" 3 none = Except.ok [c3HydeResult]
    ∧ semantic_search c3Ports "find auth" "cb" 3 none true = Except.ok [c3PlainResult]
    ∧ hyde_search c3Ports "find auth" "cb" 3 none
        ≠ semantic_search c3Ports "find auth" "cb" 3 none true
    ∧ metaGet c3HydeResult.metadata "search_method" = some (MetaVal.str "hyde") := by
  refine ⟨rfl, rfl, rfl, rfl, ?_, rfl⟩
  intro hcontra
  rw [show hyde_search c3Ports "find auth" "cb" 3 none = Except.ok [c3HydeResult] from rfl,
    show semantic_search c3Ports "find auth" "cb" 3 none true = Except.ok [c3PlainResult]
      from rfl] at hcontra
  have h := Except.ok.inj hcontra
  simp [c3HydeResult, c3PlainResult] at h

/-! ## Claim-side formulation of the hybrid combination -/

/-- Position-decayed score within a leg: score * (1 - i / len) at the index i
of the first occurrence of the id, 0 when absent (len is the leg length). -/
def decayedScoreAux (len : ℚ) : Nat → List SearchResult → String → ℚ
  | _, [], _ => 0
  | i, r :: rs, id =>
    if r.id == id then r.score * (1 - (i : ℚ) / len) else decayedScoreAux len (i + 1) rs id

/-- Position-decayed score of an id within a leg. -/
def decayedScore (l : List SearchResult) (id : String) : ℚ :=
  decayedScoreAux (l.length : ℚ) 0 l id

theorem decayedScoreAux_not_mem (len : ℚ) (i : Nat) (l : List SearchResult) (id : String)
    (h : id ∉ l.map (fun r => r.id)) : decayedScoreAux len i l id = 0 := by
  induction l generalizing i with
  | nil => rfl
  | cons r rs ih =>
    simp only [List.map_cons, List.mem_cons] at h
    push_neg at h
    have hbe : (r.id == id) = false := by simpa using fun hc => h.1 hc.symm
    simp only [decayedScoreAux, hbe, Bool.false_eq_true, if_false]
    exact ih (i + 1) h.2

/-- Running semantic score of an id in the hybrid dict (0 when absent). -/
def hybSem (acc : List HybridEntry) (id : String) : ℚ :=
  ((acc.find? (fun e => e.result.id == id)).map (fun e => e.semantic_score)).getD 0

/-- Running keyword score of an id in the hybrid dict (0 when absent). -/
def hybKw (acc : List HybridEntry) (id : String) : ℚ :=
  ((acc.find? (fun e => e.result.id == id)).map (fun e => e.keyword_score)).getD 0

/-- Ids held by the hybrid dict, in insertion order. -/
def hybIds (acc : List HybridEntry) : List String := acc.map (fun e => e.result.id)

theorem upsertSemantic_sem (acc : List HybridEntry) (r : SearchResult) (s : ℚ) (id : String) :
    hybSem (upsertSemantic acc r s) id = if r.id = id then s else hybSem acc id := by
  induction acc with
  | nil =>
    by_cases h : r.id = id
    · have hbe : (r.id == id) = true := by simpa using h
      simp [upsertSemantic, hybSem, List.find?, hbe, h]
    · have hbe : (r.id == id) = false := by simpa using h
      simp [upsertSemantic, hybSem, List.find?, hbe, h]
  | cons e es ih =>
    by_cases he : e.result.id = r.id
    · have hbe : (e.result.id == r.id) = true := by simpa using he
      simp only [upsertSemantic, hbe, if_true]
      by_cases hid : r.id = id
      · have h1 : (e.result.id == id) = true := by simp [he, hid]
        have h2 : (r.id == id) = true := by simpa using hid
        simp [hybSem, List.find?_cons, h1, h2, hid]
      · have h1 : (e.result.id == id) = false := by simp [he, hid]
        have h2 : (r.id == id) = false := by simpa using hid
        simp [hybSem, List.find?_cons, h1, h2, hid]
    · have hbe : (e.result.id == r.id) = false := by simpa using he
      simp only [upsertSemantic, hbe, Bool.false_eq_true, if_false]
      by_cases h1 : e.result.id = id
      · have hid : ¬ (r.id = id) := fun hc => he (by rw [hc, h1])
        have h1b : (e.result.id == id) = true := by simpa using h1
        simp [hybSem, List.find?_cons, h1b, hid]
      · have h1b : (e.result.id == id) = false := by simpa using h1
        simp only [hybSem, List.find?_cons, h1b] at ih ⊢
        exact ih

theorem upsertSemantic_kw (acc : List HybridEntry) (r : SearchResult) (s : ℚ) (id : String) :
    hybKw (upsertSemantic acc r s) id = if r.id = id then 0 else hybKw acc id := by
  induction acc with
  | nil =>
    by_cases h : r.id = id
    · have hbe : (r.id == id) = true := by simpa using h
      simp [upsertSemantic, hybKw, List.find?, hbe, h]
    · have hbe : (r.id == id) = false := by simpa using h
      simp [upsertSemantic, hybKw, List.find?, hbe, h]
  | cons e es ih =>
    by_cases he : e.result.id = r.id
    · have hbe : (e.result.id == r.id) = true := by simpa using he
      simp only [upsertSemantic, hbe, if_true]
      by_cases hid : r.id = id
      · have h1 : (e.result.id == id) = true := by simp [he, hid]
        have h2 : (r.id == id) = true := by simpa using hid
        simp [hybKw, List.find?_cons, h1, h2, hid]
      · have h1 : (e.result.id == id) = false := by simp [he, hid]
        have h2 : (r.id == id) = false := by simpa using hid
        simp [hybKw, List.find?_cons, h1, h2, hid]
    · have hbe : (e.result.id == r.id) = false := by simpa using he
      simp only [upsertSemantic, hbe, Bool.false_eq_true, if_false]
      by_cases h1 : e.result.id = id
      · have hid : ¬ (r.id = id) := fun hc => he (by rw [hc, h1])
        have h1b : (e.result.id == id) = true := by simpa using h1
        simp [hybKw, List.find?_cons, h1b, hid]
      · have h1b : (e.result.id == id) = false := by simpa using h1
        simp only [hybKw, List.find?_cons, h1b] at ih ⊢
        exact ih

theorem upsertKeyword_kw (acc : List HybridEntry) (r : SearchResult) (s : ℚ) (id : String) :
    hybKw (upsertKeyword acc r s) id = if r.id = id then s else hybKw acc id := by
  induction acc with
  | nil =>
    by_cases h : r.id = id
    · have hbe : (r.id == id) = true := by simpa using h
      simp [upsertKeyword, hybKw, List.find?, hbe, h]
    · have hbe : (r.id == id) = false := by simpa using h
      simp [upsertKeyword, hybKw, List.find?, hbe, h]
  | cons e es ih =>
    by_cases he : e.result.id = r.id
    · have hbe : (e.result.id == r.id) = true := by simpa using he
      simp only [upsertKeyword, hbe, if_true]
      by_cases hid : r.id = id
      · have h1 : (e.result.id == id) = true := by simp [he, hid]
        simp [hybKw, List.find?_cons, h1, hid]
      · have h1 : (e.result.id == id) = false := by simp [he, hid]
        simp [hybKw, List.find?_cons, h1, hid]
    · have hbe : (e.result.id == r.id) = false := by simpa using he
      simp only [upsertKeyword, hbe, Bool.false_eq_true, if_false]
      by_cases h1 : e.result.id = id
      · have hid : ¬ (r.id = id) := fun hc => he (by rw [hc, h1])
        have h1b : (e.result.id == id) = true := by simpa using h1
        simp [hybKw, List.find?_cons, h1b, hid]
      · have h1b : (e.result.id == id) = false := by simpa using h1
        simp only [hybKw, List.find?_cons, h1b] at ih ⊢
        exact ih

theorem upsertKeyword_sem (acc : List HybridEntry) (r : SearchResult) (s : ℚ) (id : String) :
    hybSem (upsertKeyword acc r s) id = hybSem acc id := by
  induction acc with
  | nil =>
    by_cases h : r.id = id
    · have hbe : (r.id == id) = true := by simpa using h
      simp [upsertKeyword, hybSem, List.find?, hbe]
    · have hbe : (r.id == id) = false := by simpa using h
      simp [upsertKeyword, hybSem, List.find?, hbe]
  | cons e es ih =>
    by_cases he : e.result.id = r.id
    · have hbe : (e.result.id == r.id) = true := by simpa using he
      simp only [upsertKeyword, hbe, if_true]
      by_cases h1 : e.result.id = id
      · have h1b : (e.result.id == id) = true := by simpa using h1
        simp [hybSem, List.find?_cons, h1b]
      · have h1b : (e.result.id == id) = false := by simpa using h1
        simp [hybSem, List.find?_cons, h1b]
    · have hbe : (e.result.id == r.id) = false := by simpa using he
      simp only [upsertKeyword, hbe, Bool.false_eq_true, if_false]
      by_cases h1 : e.result.id = id
      · have h1b : (e.result.id == id) = true := by simpa using h1
        simp [hybSem, List.find?_cons, h1b]
      · have h1b : (e.result.id == id) = false := by simpa using h1
        simp only [hybSem, List.find?_cons, h1b] at ih ⊢
        exact ih

theorem hybridSemPass_sem (len : ℚ) (sem : List SearchResult)
    (hnd : (sem.map (fun r => r.id)).Nodup) :
    ∀ (acc : List HybridEntry) (i : Nat) (id : String),
      hybSem (hybridSemPass len acc i sem) id =
        if id ∈ sem.map (fun r => r.id) then decayedScoreAux len i sem id
        else hybSem acc id := by
  induction sem with
  | nil => intro acc i id; simp [hybridSemPass, decayedScoreAux]
  | cons r rs ih =>
    intro acc i id
    simp only [List.map_cons, List.nodup_cons] at hnd
    show hybSem (hybridSemPass len (upsertSemantic acc r (r.score * (1 - (i : ℚ) / len)))
        (i + 1) rs) id = _
    rw [ih hnd.2, upsertSemantic_sem]
    by_cases hid : id ∈ rs.map (fun x => x.id)
    · have hne : ¬ (r.id = id) := fun hc => hnd.1 (hc ▸ hid)
      have hbe : (r.id == id) = false := by simpa using hne
      rw [if_pos hid, if_pos (by simp only [List.map_cons, List.mem_cons]; exact Or.inr hid)]
      simp [decayedScoreAux, hbe]
    · rw [if_neg hid]
      by_cases hr : r.id = id
      · have hbe : (r.id == id) = true := by simpa using hr
        rw [if_pos hr,
          if_pos (by simp only [List.map_cons, List.mem_cons]; exact Or.inl hr.symm)]
        simp [decayedScoreAux, hbe]
      · have hnotin : id ∉ (r :: rs).map (fun x => x.id) := by
          simp only [List.map_cons, List.mem_cons]
          rintro (hc | hc)
          · exact hr hc.symm
          · exact hid hc
        rw [if_neg hr, if_neg hnotin]

theorem hybridSemPass_kw (len : ℚ) (sem : List SearchResult) :
    ∀ (acc : List HybridEntry) (i : Nat) (id : String),
      hybKw (hybridSemPass len acc i sem) id =
        if id ∈ sem.map (fun r => r.id) then 0 else hybKw acc id := by
  induction sem with
  | nil => intro acc i id; simp [hybridSemPass]
  | cons r rs ih =>
    intro acc i id
    show hybKw (hybridSemPass len (upsertSemantic acc r (r.score * (1 - (i : ℚ) / len)))
        (i + 1) rs) id = _
    rw [ih, upsertSemantic_kw]
    by_cases hid : id ∈ rs.map (fun x => x.id)
    · rw [if_pos hid, if_pos (by simp only [List.map_cons, List.mem_cons]; exact Or.inr hid)]
    · rw [if_neg hid]
      by_cases hr : r.id = id
      · rw [if_pos hr,
          if_pos (by simp only [List.map_cons, List.mem_cons]; exact Or.inl hr.symm)]
      · have hnotin : id ∉ (r :: rs).map (fun x => x.id) := by
          simp only [List.map_cons, List.mem_cons]
          rintro (hc | hc)
          · exact hr hc.symm
          · exact hid hc
        rw [if_neg hr, if_neg hnotin]

theorem hybridKwPass_kw (len : ℚ) (kw : List SearchResult)
    (hnd : (kw.map (fun r => r.id)).Nodup) :
    ∀ (acc : List HybridEntry) (i : Nat) (id : String),
      hybKw (hybridKwPass len acc i kw) id =
        if id ∈ kw.map (fun r => r.id) then decayedScoreAux len i kw id
        else hybKw acc id := by
  induction kw with
  | nil => intro acc i id; simp [hybridKwPass, decayedScoreAux]
  | cons r rs ih =>
    intro acc i id
    simp only [List.map_cons, List.nodup_cons] at hnd
    show hybKw (hybridKwPass len (upsertKeyword acc r (r.score * (1 - (i : ℚ) / len)))
        (i + 1) rs) id = _
    rw [ih hnd.2, upsertKeyword_kw]
    by_cases hid : id ∈ rs.map (fun x => x.id)
    · have hne : ¬ (r.id = id) := fun hc => hnd.1 (hc ▸ hid)
      have hbe : (r.id == id) = false := by simpa using hne
      rw [if_pos hid, if_pos (by simp only [List.map_cons, List.mem_cons]; exact Or.inr hid)]
      simp [decayedScoreAux, hbe]
    · rw [if_neg hid]
      by_cases hr : r.id = id
      · have hbe : (r.id == id) = true := by simpa using hr
        rw [if_pos hr,
          if_pos (by simp only [List.map_cons, List.mem_cons]; exact Or.inl hr.symm)]
        simp [decayedScoreAux, hbe]
      · have hnotin : id ∉ (r :: rs).map (fun x => x.id) := by
          simp only [List.map_cons, List.mem_cons]
          rintro (hc | hc)
          · exact hr hc.symm
          · exact hid hc
        rw [if_neg hr, if_neg hnotin]

theorem hybridKwPass_sem (len : ℚ) (kw : List SearchResult) :
    ∀ (acc : List HybridEntry) (i : Nat) (id : String),
      hybSem (hybridKwPass len acc i kw) id = hybSem acc id := by
  induction kw with
  | nil => intro acc i id; rfl
  | cons r rs ih =>
    intro acc i id
    show hybSem (hybridKwPass len (upsertKeyword acc r (r.score * (1 - (i : ℚ) / len)))
        (i + 1) rs) id = _
    rw [ih, upsertKeyword_sem]

theorem upsertSemantic_ids_mem (acc : List HybridEntry) (r : SearchResult) (s : ℚ)
    (h : r.id ∈ hybIds acc) : hybIds (upsertSemantic acc r s) = hybIds acc := by
  induction acc with
  | nil => simp [hybIds] at h
  | cons e es ih =>
    by_cases he : e.result.id = r.id
    · have hbe : (e.result.id == r.id) = true := by simpa using he
      simp [upsertSemantic, hbe, hybIds, he]
    · have hbe : (e.result.id == r.id) = false := by simpa using he
      have hmem : r.id ∈ hybIds es := by
        simp only [hybIds, List.map_cons, List.mem_cons] at h
        rcases h with h | h
        · exact absurd h.symm he
        · exact h
      simp only [upsertSemantic, hbe, Bool.false_eq_true, if_false, hybIds, List.map_cons]
      rw [show (upsertSemantic es r s).map (fun e => e.result.id)
          = hybIds (upsertSemantic es r s) from rfl, ih hmem]
      rfl

theorem upsertSemantic_ids_new (acc : List HybridEntry) (r : SearchResult) (s : ℚ)
    (h : r.id ∉ hybIds acc) : hybIds (upsertSemantic acc r s) = hybIds acc ++ [r.id] := by
  induction acc with
  | nil => simp [upsertSemantic, hybIds]
  | cons e es ih =>
    have he : ¬ (e.result.id = r.id) := fun hc => h (by simp [hybIds, hc])
    have hbe : (e.result.id == r.id) = false := by simpa using he
    have hmem : r.id ∉ hybIds es := by
      intro hc
      refine h ?_
      simp only [hybIds, List.map_cons, List.mem_cons]
      exact Or.inr hc
    simp only [upsertSemantic, hbe, Bool.false_eq_true, if_false, hybIds, List.map_cons]
    rw [show (upsertSemantic es r s).map (fun e => e.result.id)
        = hybIds (upsertSemantic es r s) from rfl, ih hmem]
    rfl

theorem upsertKeyword_ids_mem (acc : List HybridEntry) (r : SearchResult) (s : ℚ)
    (h : r.id ∈ hybIds acc) : hybIds (upsertKeyword acc r s) = hybIds acc := by
  induction acc with
  | nil => simp [hybIds] at h
  | cons e es ih =>
    by_cases he : e.result.id = r.id
    · have hbe : (e.result.id == r.id) = true := by simpa using he
      simp [upsertKeyword, hbe, hybIds]
    · have hbe : (e.result.id == r.id) = false := by simpa using he
      have hmem : r.id ∈ hybIds es := by
        simp only [hybIds, List.map_cons, List.mem_cons] at h
        rcases h with h | h
        · exact absurd h.symm he
        · exact h
      simp only [upsertKeyword, hbe, Bool.false_eq_true, if_false, hybIds, List.map_cons]
      rw [show (upsertKeyword es r s).map (fun e => e.result.id)
          = hybIds (upsertKeyword es r s) from rfl, ih hmem]
      rfl

theorem upsertKeyword_ids_new (acc : List HybridEntry) (r : SearchResult) (s : ℚ)
    (h : r.id ∉ hybIds acc) : hybIds (upsertKeyword acc r s) = hybIds acc ++ [r.id] := by
  induction acc with
  | nil => simp [upsertKeyword, hybIds]
  | cons e es ih =>
    have he : ¬ (e.result.id = r.id) := fun hc => h (by simp [hybIds, hc])
    have hbe : (e.result.id == r.id) = false := by simpa using he
    have hmem : r.id ∉ hybIds es := by
      intro hc
      refine h ?_
      simp only [hybIds, List.map_cons, List.mem_cons]
      exact Or.inr hc
    simp only [upsertKeyword, hbe, Bool.false_eq_true, if_false, hybIds, List.map_cons]
    rw [show (upsertKeyword es r s).map (fun e => e.result.id)
        = hybIds (upsertKeyword es r s) from rfl, ih hmem]
    rfl

theorem upsertSemantic_nodup (acc : List HybridEntry) (r : SearchResult) (s : ℚ)
    (hnd : (hybIds acc).Nodup) : (hybIds (upsertSemantic acc r s)).Nodup := by
  by_cases h : r.id ∈ hybIds acc
  · rw [upsertSemantic_ids_mem acc r s h]
    exact hnd
  · rw [upsertSemantic_ids_new acc r s h]
    simp [List.nodup_append, hnd, h]

theorem upsertKeyword_nodup (acc : List HybridEntry) (r : SearchResult) (s : ℚ)
    (hnd : (hybIds acc).Nodup) : (hybIds (upsertKeyword acc r s)).Nodup := by
  by_cases h : r.id ∈ hybIds acc
  · rw [upsertKeyword_ids_mem acc r s h]
    exact hnd
  · rw [upsertKeyword_ids_new acc r s h]
    simp [List.nodup_append, hnd, h]

theorem hybridSemPass_nodup (len : ℚ) (sem : List SearchResult) :
    ∀ (acc : List HybridEntry) (i : Nat),
      (hybIds acc).Nodup → (hybIds (hybridSemPass len acc i sem)).Nodup := by
  induction sem with
  | nil => intro acc i h; exact h
  | cons r rs ih =>
    intro acc i h
    exact ih _ (i + 1) (upsertSemantic_nodup acc r _ h)

theorem hybridKwPass_nodup (len : ℚ) (kw : List SearchResult) :
    ∀ (acc : List HybridEntry) (i : Nat),
      (hybIds acc).Nodup → (hybIds (hybridKwPass len acc i kw)).Nodup := by
  induction kw with
  | nil => intro acc i h; exact h
  | cons r rs ih =>
    intro acc i h
    exact ih _ (i + 1) (upsertKeyword_nodup acc r _ h)

theorem hyb_entry_vals (acc : List HybridEntry) (hnd : (hybIds acc).Nodup) :
    ∀ e ∈ acc, hybSem acc e.result.id = e.semantic_score
      ∧ hybKw acc e.result.id = e.keyword_score := by
  induction acc with
  | nil => intro e he; simp at he
  | cons a as ih =>
    intro e he
    simp only [hybIds, List.map_cons, List.nodup_cons] at hnd
    rcases List.mem_cons.mp he with rfl | he2
    · constructor <;> simp [hybSem, hybKw, List.find?_cons]
    · have hne : (a.result.id == e.result.id) = false := by
        have hm : e.result.id ∈ as.map (fun x => x.result.id) :=
          List.mem_map_of_mem (fun x => x.result.id) he2
        simpa using fun hc => hnd.1 (by rw [hc]; exact hm)
      constructor
      · simp only [hybSem, List.find?_cons, hne]
        exact (ih hnd.2 e he2).1
      · simp only [hybKw, List.find?_cons, hne]
        exact (ih hnd.2 e he2).2

/-- C2 (amended): hybrid routing.  Without HyDE the orchestrator merges the
semantic and keyword legs by an id-keyed weighted combination
0.7 * semantic + 0.3 * keyword of the position-decayed scores
score * (1 - position / leg length), sorted descending and truncated to
top_k — not by reciprocal rank fusion.  With use_hyde set and HyDE available
it fuses the two-stage HyDE leg with the description leg by reciprocal rank
fusion with weights 0.6 / 0.4 and truncates to top_k. -/
theorem claim_C2_hybrid_routing :
    (∀ (S : Ports) (query codebase_name : String) (top_k : Nat) (filters : Filters)
        (hl dl : List SearchResult),
        hyde_available S = true →
        hyde_search S query codebase_name top_k filters = Except.ok hl →
        description_search S query codebase_name top_k filters = Except.ok dl →
        search S query codebase_name top_k filters "hybrid" true
          = (reciprocal_rank_fusion [hl, dl] (some [3/5, 2/5]) 60).take top_k)
    ∧ (∀ (S : Ports) (query codebase_name : String) (top_k : Nat) (filters : Filters)
        (sem kw : List SearchResult),
        semantic_search S query codebase_name (top_k * 2) filters true = Except.ok sem →
        keyword_search S query codebase_name (top_k * 2) filters = Except.ok kw →
        (sem.map (fun r => r.id)).Nodup →
        (kw.map (fun r => r.id)).Nodup →
        (∀ r ∈ search S query codebase_name top_k filters "hybrid" false,
            r.score = 7/10 * decayedScore sem r.id + 3/10 * decayedScore kw r.id)
          ∧ (search S query codebase_name top_k filters "hybrid" false).Pairwise
              (fun a b => b.score ≤ a.score)
          ∧ (search S query codebase_name top_k filters "hybrid" false).length ≤ top_k) := by
  constructor
  · intro S query codebase_name top_k filters hl dl hav hhl hdl
    have hbody : searchBody S query codebase_name top_k filters "hybrid" true
        = Except.ok ((reciprocal_rank_fusion [hl, dl] (some [3/5, 2/5]) 60).take top_k) := by
      unfold searchBody
      simp only [(by decide : ("hybrid" == "hyde") = false),
        (by decide : ("hybrid" == "hyde_full") = false),
        (by decide : ("hybrid" == "semantic") = false),
        (by decide : ("hybrid" == "hybrid") = true),
        Bool.false_eq_true, if_false, if_true, Bool.true_and, hav]
      unfold hyde_hybrid_search
      rw [hhl]
      show description_search S query codebase_name top_k filters >>= _ = _
      rw [hdl]
      rfl
    unfold search
    rw [hbody]
  · intro S query codebase_name top_k filters sem kw hsem hkw hndsem hndkw
    have hcombined :
        hybrid_search S query codebase_name top_k filters
          = Except.ok ((sortDescBy (fun x => x.score)
              ((hybridKwPass (kw.length : ℚ)
                  (hybridSemPass (sem.length : ℚ) [] 0 sem) 0 kw).map (fun e =>
                { e.result with
                    score := 7/10 * e.semantic_score + 3/10 * e.keyword_score,
                    metadata := metaUpdate e.result.metadata
                      [("semantic_score", MetaVal.num e.semantic_score),
                       ("keyword_score", MetaVal.num e.keyword_score),
                       ("search_type", MetaVal.str "hybrid")] }))).take top_k) := by
      unfold hybrid_search
      rw [hsem]
      show keyword_search S query codebase_name (top_k * 2) filters >>= _ = _
      rw [hkw]
      rfl
    have hbody : searchBody S query codebase_name top_k filters "hybrid" false
        = hybrid_search S query codebase_name top_k filters := by
      unfold searchBody
      simp only [(by decide : ("hybrid" == "hyde") = false),
        (by decide : ("hybrid" == "hyde_full") = false),
        (by decide : ("hybrid" == "semantic") = false),
        (by decide : ("hybrid" == "hybrid") = true),
        Bool.false_eq_true, if_false, if_true, Bool.false_and]
    have hsearch : search S query codebase_name top_k filters "hybrid" false
        = (sortDescBy (fun x => x.score)
            ((hybridKwPass (kw.length : ℚ)
                (hybridSemPass (sem.length : ℚ) [] 0 sem) 0 kw).map (fun e =>
              { e.result with
                  score := 7/10 * e.semantic_score + 3/10 * e.keyword_score,
                  metadata := metaUpdate e.result.metadata
                    [("semantic_score", MetaVal.num e.semantic_score),
                     ("keyword_score", MetaVal.num e.keyword_score),
                     ("search_type", MetaVal.str "hybrid")] }))).take top_k := by
      unfold search
      rw [hbody, hcombined]
    have hnd_comb : (hybIds (hybridKwPass (kw.length : ℚ)
        (hybridSemPass (sem.length : ℚ) [] 0 sem) 0 kw)).Nodup := by
      apply hybridKwPass_nodup
      apply hybridSemPass_nodup
      simp [hybIds]
    have hcomb_sem : ∀ id, hybSem (hybridKwPass (kw.length : ℚ)
        (hybridSemPass (sem.length : ℚ) [] 0 sem) 0 kw) id = decayedScore sem id := by
      intro id
      rw [hybridKwPass_sem, hybridSemPass_sem (sem.length : ℚ) sem hndsem]
      by_cases hid : id ∈ sem.map (fun r => r.id)
      · rw [if_pos hid]
        rfl
      · rw [if_neg hid]
        rw [show decayedScore sem id = decayedScoreAux (sem.length : ℚ) 0 sem id from rfl]
        rw [decayedScoreAux_not_mem _ _ _ _ hid]
        rfl
    have hcomb_kw : ∀ id, hybKw (hybridKwPass (kw.length : ℚ)
        (hybridSemPass (sem.length : ℚ) [] 0 sem) 0 kw) id = decayedScore kw id := by
      intro id
      rw [hybridKwPass_kw (kw.length : ℚ) kw hndkw]
      by_cases hid : id ∈ kw.map (fun r => r.id)
      · rw [if_pos hid]
        rfl
      · rw [if_neg hid]
        rw [hybridSemPass_kw]
        rw [show decayedScore kw id = decayedScoreAux (kw.length : ℚ) 0 kw id from rfl]
        rw [decayedScoreAux_not_mem _ _ _ _ hid]
        by_cases hid2 : id ∈ sem.map (fun r => r.id)
        · rw [if_pos hid2]
        · rw [if_neg hid2]
          rfl
    have hvals : ∀ e ∈ hybridKwPass (kw.length : ℚ)
        (hybridSemPass (sem.length : ℚ) [] 0 sem) 0 kw,
        e.semantic_score = decayedScore sem e.result.id
          ∧ e.keyword_score = decayedScore kw e.result.id := by
      intro e he
      have h := hyb_entry_vals _ hnd_comb e he
      exact ⟨h.1.symm.trans (hcomb_sem e.result.id),
        h.2.symm.trans (hcomb_kw e.result.id)⟩
    refine ⟨?_, ?_, ?_⟩
    · intro r hr
      rw [hsearch] at hr
      have hr2 := List.mem_of_mem_take hr
      have hr3 := (sortDescBy_perm (fun x : SearchResult => x.score) _).mem_iff.mp hr2
      rcases List.mem_map.mp hr3 with ⟨e, he, rfl⟩
      rcases hvals e he with ⟨h1, h2⟩
      show 7/10 * e.semantic_score + 3/10 * e.keyword_score
        = 7/10 * decayedScore sem e.result.id + 3/10 * decayedScore kw e.result.id
      rw [h1, h2]
    · rw [hsearch]
      exact List.Pairwise.sublist (List.take_sublist _ _) (sortDescBy_sorted _ _)
    · rw [hsearch]
      simp [List.length_take_le]

def c2Raw : RawRecord := demoRaw "h1" "alpha" "bravo" (1/5)

def c2Ports : Ports :=
  { generate_embedding := fun _ _ => Except.ok (some (List.replicate 768 0)),
    vs_search := fun _ _ _ _ => Except.ok [c2Raw],
    vs_search_by_description := fun _ _ _ _ => Except.ok [c2Raw],
    translation_agent := none,
    hyde_present := false, hyde_enabled := false, hyde_client := false,
    backend := fun _ _ => none }

/-- The semantic leg's conversion of the demo record (similarity 1 - 1/5). -/
def c2SemRes : SearchResult :=
  { id := "h1", content := "bravo", chunk_type := "function", name := "alpha",
    file_path := "f.py", language := "python", line_start := 1, line_end := 2,
    parent_name := none, description := none, score := 1 - 1/5, metadata := [] }

theorem c2_keyword_eval : keyword_search c2Ports "zzz" "cb" (5 * 2) none = Except.ok [] := by
  have h1 : pySplitWs (pyLower "zzz") = ["zzz"] := by decide
  have h2 : kwRecordScore ["zzz"] c2Raw = 0 := by
    simp only [kwRecordScore, c2Raw, demoRaw]
    norm_num [(by decide : pyIn "zzz" (pyLower "bravo") = false),
      (by decide : pyIn "zzz" (pyLower "alpha") = false)]
  have h3 : kwScoredResult ["zzz"] c2Raw = none := by
    simp only [kwScoredResult, h2]
    norm_num
  unfold keyword_search
  rw [show c2Ports.vs_search "cb" (List.replicate 768 0) 1000 none = Except.ok [c2Raw]
    from rfl]
  show Except.ok _ = _
  rw [h1]
  simp [h3, sortDescBy]

theorem c2_hybrid_score_eval :
    (search c2Ports "zzz" "cb" 5 none "hybrid" false).map (fun r => r.score) = [14/25] := by
  have hsem0 : semantic_search c2Ports "zzz" "cb" (5 * 2) none true
      = Except.ok [c2SemRes] := rfl
  have hb : searchBody c2Ports "zzz" "cb" 5 none "hybrid" false
      = Except.ok ((sortDescBy (fun x => x.score)
          ((hybridKwPass ((([] : List SearchResult)).length : ℚ)
              (hybridSemPass (([c2SemRes] : List SearchResult).length : ℚ) [] 0 [c2SemRes])
              0 ([] : List SearchResult)).map (fun e =>
            { e.result with
                score := 7/10 * e.semantic_score + 3/10 * e.keyword_score,
                metadata := metaUpdate e.result.metadata
                  [("semantic_score", MetaVal.num e.semantic_score),
                   ("keyword_score", MetaVal.num e.keyword_score),
                   ("search_type", MetaVal.str "hybrid")] }))).take 5) := by
    unfold searchBody
    simp only [(by decide : ("hybrid" == "hyde") = false),
      (by decide : ("hybrid" == "hyde_full") = false),
      (by decide : ("hybrid" == "semantic") = false),
      (by decide : ("hybrid" == "hybrid") = true),
      Bool.false_eq_true, if_false, if_true, Bool.false_and]
    unfold hybrid_search
    rw [hsem0, c2_keyword_eval]
    rfl
  unfold search
  rw [hb]
  simp only [hybridKwPass, hybridSemPass, upsertSemantic, List.map_cons, List.map_nil]
  simp only [sortDescBy, insertDescBy, List.foldl_cons, List.foldl_nil, List.take]
  simp only [List.map_cons, List.map_nil]
  norm_num [c2SemRes]

/-- C2 counterexample: a concrete hybrid search (no HyDE) whose semantic leg
returns one result of similarity 0.8 and whose keyword leg is empty; the
orchestrator gives it score 0.7 * 0.8 = 0.56, while reciprocal rank fusion of
the two legs would give 1/61 — so the non-HyDE hybrid route is not a
reciprocal-rank fusion of the legs. -/
theorem claim_C2_counterexample :
    semantic_search c2Ports "zzz" "cb" (5 * 2) none true = Except.ok [c2SemRes]
    ∧ keyword_search c2Ports "zzz" "cb" (5 * 2) none = Except.ok []
    ∧ ((reciprocal_rank_fusion [[c2SemRes], []] none 60).take 5).map (fun r => r.score)
        = [1/61]
    ∧ search c2Ports "zzz" "cb" 5 none "hybrid" false
        ≠ (reciprocal_rank_fusion [[c2SemRes], []] none 60).take 5 := by
  have hrrf : ((reciprocal_rank_fusion [[c2SemRes], []] none 60).take 5).map
      (fun r => r.score) = [1/61] := by
    simp only [reciprocal_rank_fusion, rrfRankFold, rrfAdd, List.zip_cons_cons,
      List.replicate, List.foldl_cons, List.foldl_nil, sortDescBy, insertDescBy,
      List.take, List.map_cons, List.map_nil]
    norm_num
  refine ⟨rfl, c2_keyword_eval, hrrf, ?_⟩
  intro hcontra
  have h := congrArg (List.map (fun r => r.score)) hcontra
  rw [c2_hybrid_score_eval, hrrf] at h
  simp only [List.cons.injEq, and_true] at h
  norm_num at h

/-- Witness for C2 at the concrete ports: the hybrid output's scores follow
the 0.7/0.3 weighted decayed-score formula, sorted, within top_k. -/
theorem claim_C2_witness :
    (∀ r ∈ search c2Ports "zzz" "cb" 5 none "hybrid" false,
        r.score = 7/10 * decayedScore [c2SemRes] r.id + 3/10 * decayedScore [] r.id)
    ∧ (search c2Ports "zzz" "cb" 5 none "hybrid" false).Pairwise
        (fun a b => b.score ≤ a.score)
    ∧ (search c2Ports "zzz" "cb" 5 none "hybrid" false).length ≤ 5 :=
  claim_C2_hybrid_routing.2 c2Ports "zzz" "cb" 5 none [c2SemRes] [] rfl c2_keyword_eval
    (by decide) (by decide)
